import Mathlib

/-!
Verification development for the diff computation and classification engine of
`gitdiff2docx` (`diff_tool.py`).  The Python source is shallowly embedded:

* Python `str` values are modelled as `List Char`, `bytes` as `List Nat`
  (each element a byte value `< 256`).
* `is_binary_string`, `is_image_file` and the main-loop classification branch
  are embedded directly; the external `mimetypes.guess_type` lookup is
  abstracted as a function parameter `List Char → Option (List Char)`.
* `bytes.decode(encoding, errors=...)` is modelled for the default `utf-8`
  encoding with the CPython error-handler semantics (`strict` raises,
  `ignore` drops the maximal invalid subpart, `replace` substitutes U+FFFD
  per maximal invalid subpart).
* `difflib.SequenceMatcher(None, a, b)` (standard-library collaborator the
  main loop delegates to) is embedded in full: `b2j` construction with the
  autojunk popularity filter, `find_longest_match`, the `get_matching_blocks`
  queue loop and `get_opcodes`.  Python `while` loops that are not structural
  are given an explicit fuel argument that provably suffices.
* The main-loop diff projection (building `diff_lines` / `line_nums`) and the
  per-token styling of `add_diff_table` are embedded directly; the pygments
  lexer is an external collaborator and only its plain-text fallback is
  modelled (from the spec) where a claim needs it.
-/

/-- Python `str` is modelled as a list of characters. -/
abbrev Line := List Char

-- ---------------------------------------------------------------------------
-- Content classifier (diff_tool.py lines 47-54 and 412-426)

/-- The allow-list of `is_binary_string`:
`bytearray({7, 8, 9, 10, 12, 13, 27} | set(range(0x20, 0x100)) - {0x7f})`.
Note `range(0x20, 0x100)` includes `0xFF`. -/
def textchars (bt : Nat) : Bool :=
  decide (bt ∈ [7, 8, 9, 10, 12, 13, 27]) ||
    (decide (0x20 ≤ bt) && decide (bt < 0x100) && decide (bt ≠ 0x7f))

/-- `is_binary_string(bytes_data)`: `bytes_data.translate(None, textchars)`
deletes every allow-listed byte; the result is truthy iff some byte outside
the allow-list remains. -/
def is_binary_string (bytes_data : List Nat) : Bool :=
  bytes_data.any (fun bt => !(textchars bt))

/-- `p` is a prefix of `s` (models Python `str.startswith`). -/
def chStarts : List Char → List Char → Bool
  | _, [] => true
  | [], _ :: _ => false
  | c :: cs, p :: ps => decide (c = p) && chStarts cs ps

/-- Content classification result of the main loop. -/
inductive ContentKind
  | text
  | binary
  | image
deriving DecidableEq

/-- `is_image_file(filename)`: `mimetype, _ = mimetypes.guess_type(filename);
return mimetype and mimetype.startswith("image/")`.  The external
`mimetypes.guess_type` table is abstracted as `guess_type`; a `None` result
(unknown/malformed filename) is falsy. -/
def is_image_file (guess_type : Line → Option Line) (filename : Line) : Bool :=
  match guess_type filename with
  | some mimetype => chStarts mimetype "image/".toList
  | none => false

/-- Main-loop classification branch (lines 412-426):
`if is_binary_string(new_bytes) or is_binary_string(old_bytes):` then image or
binary depending on `is_image_file(file)`, else the text-diff path. -/
def classify (guess_type : Line → Option Line) (old_bytes new_bytes : List Nat)
    (file : Line) : ContentKind :=
  if is_binary_string new_bytes || is_binary_string old_bytes then
    (if is_image_file guess_type file then ContentKind.image else ContentKind.binary)
  else ContentKind.text

-- ---------------------------------------------------------------------------
-- Text decoding (line 429-430): `old_bytes.decode(file_encoding, errors="ignore")`
-- modelled for the default `file_encoding = "utf-8"`.

/-- The `errors=` handler of `bytes.decode`. -/
inductive DecErrors
  | strict
  | ignore
  | replace
deriving DecidableEq

/-- Result of one decoding attempt at the head of the byte list: a scalar
value together with the number of bytes consumed, or the length of the
maximal invalid subpart (CPython/Unicode "maximal subpart" policy). -/
inductive Utf8Step
  | ok (cp : Nat) (len : Nat)
  | err (len : Nat)
deriving DecidableEq

/-- Number of bytes consumed by one decoding step. -/
def stepLen : Utf8Step → Nat
  | Utf8Step.ok _ len => len
  | Utf8Step.err len => len

/-- Is `bt` a UTF-8 continuation byte `0x80..0xBF`? -/
def utf8Cont (bt : Nat) : Bool := decide (0x80 ≤ bt) && decide (bt ≤ 0xBF)

/-- One UTF-8 decoding step, following CPython's decoder: two-byte leads are
`0xC2..0xDF`, three-byte leads `0xE0..0xEF` (with the restricted first
continuation ranges excluding overlongs and surrogates), four-byte leads
`0xF0..0xF4` (restricted to `≤ U+10FFFF`); anything else is invalid. -/
def utf8Step : List Nat → Utf8Step
  | [] => Utf8Step.err 1
  | b0 :: rest =>
    if b0 < 0x80 then Utf8Step.ok b0 1
    else if 0xC2 ≤ b0 ∧ b0 ≤ 0xDF then
      match rest with
      | [] => Utf8Step.err 1
      | b1 :: _ =>
        if utf8Cont b1 then Utf8Step.ok ((b0 - 0xC0) * 64 + (b1 - 0x80)) 2
        else Utf8Step.err 1
    else if 0xE0 ≤ b0 ∧ b0 ≤ 0xEF then
      let lo1 := if b0 = 0xE0 then 0xA0 else 0x80
      let hi1 := if b0 = 0xED then 0x9F else 0xBF
      match rest with
      | [] => Utf8Step.err 1
      | b1 :: rest1 =>
        if lo1 ≤ b1 ∧ b1 ≤ hi1 then
          match rest1 with
          | [] => Utf8Step.err 2
          | b2 :: _ =>
            if utf8Cont b2 then
              Utf8Step.ok ((b0 - 0xE0) * 4096 + (b1 - 0x80) * 64 + (b2 - 0x80)) 3
            else Utf8Step.err 2
        else Utf8Step.err 1
    else if 0xF0 ≤ b0 ∧ b0 ≤ 0xF4 then
      let lo1 := if b0 = 0xF0 then 0x90 else 0x80
      let hi1 := if b0 = 0xF4 then 0x8F else 0xBF
      match rest with
      | [] => Utf8Step.err 1
      | b1 :: rest1 =>
        if lo1 ≤ b1 ∧ b1 ≤ hi1 then
          match rest1 with
          | [] => Utf8Step.err 2
          | b2 :: rest2 =>
            if utf8Cont b2 then
              match rest2 with
              | [] => Utf8Step.err 3
              | b3 :: _ =>
                if utf8Cont b3 then
                  Utf8Step.ok
                    ((b0 - 0xF0) * 262144 + (b1 - 0x80) * 4096 +
                      (b2 - 0x80) * 64 + (b3 - 0x80)) 4
                else Utf8Step.err 3
            else Utf8Step.err 2
        else Utf8Step.err 1
    else Utf8Step.err 1

/-- Decoding loop.  Each step consumes at least one byte, so `fuel :=
initial length` suffices (`utf8Decode` below); the `fuel = 0` case on a
nonempty input is unreachable and reported as an error. -/
def utf8DecodeLoop (mode : DecErrors) : Nat → List Nat → Except Unit (List Nat)
  | _, [] => Except.ok []
  | 0, _ :: _ => Except.error ()
  | fuel + 1, b0 :: rest =>
    match utf8Step (b0 :: rest) with
    | Utf8Step.ok cp len =>
      (utf8DecodeLoop mode fuel ((b0 :: rest).drop len)).map (fun cs => cp :: cs)
    | Utf8Step.err len =>
      match mode with
      | DecErrors.strict => Except.error ()
      | DecErrors.ignore => utf8DecodeLoop mode fuel ((b0 :: rest).drop len)
      | DecErrors.replace =>
        (utf8DecodeLoop mode fuel ((b0 :: rest).drop len)).map (fun cs => 0xFFFD :: cs)

/-- `bytes.decode("utf-8", errors=mode)` as a list of code points. -/
def utf8Decode (mode : DecErrors) (bs : List Nat) : Except Unit (List Nat) :=
  utf8DecodeLoop mode bs.length bs

-- ---------------------------------------------------------------------------
-- Lexer resolution (lines 432-437)

/-- `sample = "\n".join(new_content or old_content)`. -/
def sampleOf (old_content new_content : List Line) : Line :=
  List.intercalate ['\n'] (if new_content = [] then old_content else new_content)

/-- Python `sample or ""` (the argument of the second guess). -/
def orEmpty (sample : Line) : Line := if sample = [] then [] else sample

/-- Lexer resolution of the main loop:
`try: lexer = guess_lexer_for_filename(file, sample)`
`except: lexer = guess_lexer(sample or "")`.
The two pygments guessers are external collaborators; either may raise
(modelled as `Except.error`).  Note there is no third fallback: an exception
from `guess_lexer` propagates. -/
def resolveLexer {L : Type} (guess_lexer_for_filename : Line → Line → Except Unit L)
    (guess_lexer : Line → Except Unit L) (file sample : Line) : Except Unit L :=
  match guess_lexer_for_filename file sample with
  | Except.ok lexer => Except.ok lexer
  | Except.error _ => guess_lexer (orEmpty sample)

-- ---------------------------------------------------------------------------
-- Token styling (add_diff_table, lines 323-351)

/-- A small universe standing for pygments token types. -/
inductive TokCat
  | text
  | keyword
  | comment
  | other
deriving DecidableEq

/-- The visual attributes accumulated on a run while parsing a style string. -/
structure RunStyle where
  bold : Bool
  italic : Bool
  color : Option (Nat × Nat × Nat)
deriving DecidableEq

/-- Python whitespace test for `str.split()` (ASCII whitespace; the unicode
space classes are irrelevant to the style strings handled here). -/
def isWs (c : Char) : Bool :=
  decide (c = ' ') || decide (c = '\t') || decide (c = '\n') ||
    decide (c = '\r') || decide (c = '\x0b') || decide (c = '\x0c')

/-- Helper for `splitWs`: accumulates the current word (reversed). -/
def splitWsAux : List Char → List Char → List (List Char)
  | [], acc => if acc = [] then [] else [acc.reverse]
  | c :: cs, acc =>
    if isWs c then
      (if acc = [] then splitWsAux cs [] else acc.reverse :: splitWsAux cs [])
    else splitWsAux cs (c :: acc)

/-- Python `str.split()` with no argument: split on whitespace runs, no empty
parts. -/
def splitWs (s : List Char) : List (List Char) := splitWsAux s []

/-- Hex digit value, models the digits accepted by `int(s, 16)`. -/
def hexDigit (c : Char) : Option Nat :=
  if decide ('0' ≤ c) && decide (c ≤ '9') then some (c.toNat - '0'.toNat)
  else if decide ('a' ≤ c) && decide (c ≤ 'f') then some (c.toNat - 'a'.toNat + 10)
  else if decide ('A' ≤ c) && decide (c ≤ 'F') then some (c.toNat - 'A'.toNat + 10)
  else none

/-- `int(s, 16)` on the (at most two character) slices taken by the color
parser; the empty string or a non-hex character raises `ValueError`
(modelled as `none`).  (CPython's `int` also tolerates signs, underscores
and a `0x` prefix; no theorem below depends on that fringe.) -/
def parseHexSlice : List Char → Option Nat
  | [] => none
  | cs =>
    cs.foldl
      (fun acc c =>
        match acc, hexDigit c with
        | some v, some dg => some (v * 16 + dg)
        | _, _ => none)
      (some 0)

/-- One attribute word of a theme style string (the body of
`for part in style_str.split():`): `bold` and `italic` set flags, a
seven-character `#`-token is parsed as a color (a `ValueError` anywhere in
the three slices leaves the style unchanged), and anything else falls
through silently. -/
def applyStylePart (st : RunStyle) (part : List Char) : RunStyle :=
  if part = "bold".toList then { st with bold := true }
  else if part = "italic".toList then { st with italic := true }
  else if part.head? = some '#' ∧ part.length = 7 then
    let hexcode := part.dropWhile (fun c => decide (c = '#'))
    match parseHexSlice (hexcode.take 2), parseHexSlice ((hexcode.drop 2).take 2),
        parseHexSlice ((hexcode.drop 4).take 2) with
    | some r, some g, some b => { st with color := some (r, g, b) }
    | _, _, _ => st
  else st

/-- Fold of `applyStylePart` over all words of a style string. -/
def applyStyleParts (st : RunStyle) (parts : List (List Char)) : RunStyle :=
  parts.foldl applyStylePart st

/-- `value.rstrip('\n')`: drop every trailing newline character. -/
def rstripNewline (v : List Char) : List Char :=
  (v.reverse.dropWhile (fun c => decide (c = '\n'))).reverse

/-- The non-breaking space substituted for an empty token text. -/
def nbspC : Char := Char.ofNat 0xA0

/-- The text given to a run for one token (lines 328-330):
`value = value.rstrip('\n'); if not value: value = " "`. -/
def spanText (v : List Char) : List Char :=
  let v' := rstripNewline v
  if v' = [] then [nbspC] else v'

/-- One rendered run: its text plus the attributes applied from the theme. -/
structure StyledSpan where
  text : List Char
  bold : Bool
  italic : Bool
  color : Option (Nat × Nat × Nat)
deriving DecidableEq

/-- Styling of one `(ttype, value)` token of `lex(code_content, lexer)`:
the run text via `spanText`, then `style_str = token_styles.get(ttype);
if style_str: <apply parts>` (an empty style string is falsy and skipped). -/
def styleSpan (theme : TokCat → Option (List Char)) (tok : TokCat × List Char) :
    StyledSpan :=
  let value := spanText tok.2
  let base : RunStyle := ⟨false, false, none⟩
  let st :=
    match theme tok.1 with
    | some style_str => if style_str = [] then base else applyStyleParts base (splitWs style_str)
    | none => base
  ⟨value, st.bold, st.italic, st.color⟩

/-- Styling of a whole row: one run per token. -/
def styleRow (theme : TokCat → Option (List Char)) (toks : List (TokCat × List Char)) :
    List StyledSpan :=
  toks.map (styleSpan theme)

/-- Modelled from the spec: the plain-text passthrough lexer of the external
lexical-grammar provider (pygments is not part of this repository) — "a
plain-text passthrough lexer that yields the whole line as one token". -/
def plainLex (text : List Char) : List (TokCat × List Char) :=
  [(TokCat.text, text)]

-- ---------------------------------------------------------------------------
-- difflib.SequenceMatcher(None, old_content, new_content) (lines 439-445).
-- The main loop delegates alignment to the standard library; the matcher is
-- embedded here in full for `isjunk=None`, `autojunk=True` (the arguments
-- used by the source).  Elements are `Line`s; `b` is the new sequence.

/-- Default element used by total indexing (`getD`); all indexing proved
about below is in range. -/
def dLine : Line := []

/-- Positions of `e` in `b` starting at index `i`, in ascending order.
Models the `b2j.setdefault(elt, []).append(i)` accumulation of `__chain_b`. -/
def positionsAux (e : Line) : Nat → List Line → List Nat
  | _, [] => []
  | i, x :: xs =>
    if x = e then i :: positionsAux e (i + 1) xs else positionsAux e (i + 1) xs

/-- All positions of `e` in `b`. -/
def positions (b : List Line) (e : Line) : List Nat := positionsAux e 0 b

/-- The autojunk popularity test of `__chain_b`: with `n = len(b) >= 200`,
elements occurring more than `n // 100 + 1` times are dropped from `b2j`.
(`isjunk` is `None` in the source, so the junk set is empty.) -/
def isPopular (b : List Line) (e : Line) : Bool :=
  decide (200 ≤ b.length) && decide (b.length / 100 + 1 < (positions b e).length)

/-- `b2j` after `__chain_b`: ascending occurrence lists, popular elements
removed (`b2j.get(elt, [])` yields `[]` for removed/absent keys). -/
def mkB2j (b : List Line) (e : Line) : List Nat :=
  if isPopular b e then [] else positions b e

/-- `self.bjunk.__contains__`: `isjunk` is `None`, so nothing is junk. -/
def bjunk (_e : Line) : Bool := false

/-- The running best match of `find_longest_match`. -/
structure FLM where
  besti : Nat
  bestj : Nat
  bestsize : Nat
deriving DecidableEq

/-- The inner `for j in b2j.get(a[i], nothing)` loop of `find_longest_match`:
`j < blo` continues, `j >= bhi` breaks, otherwise
`k = newj2len[j] = j2len.get(j-1, 0) + 1` and the best triple is updated when
`k > bestsize`.  Dictionaries are modelled as total functions defaulting
to `0`; `j2len.get(j-1, 0)` at `j = 0` reads the absent key `-1`, hence the
explicit `0` in that case.  `besti = i-k+1` is written `i+1-k` (equal, since
`k ≤ i+1` — proved below). -/
def innerLoop (blo bhi i : Nat) :
    List Nat → (Nat → Nat) → (Nat → Nat) → FLM → ((Nat → Nat) × FLM)
  | [], _, newd, st => (newd, st)
  | j :: js, oldd, newd, st =>
    if j < blo then innerLoop blo bhi i js oldd newd st
    else if bhi ≤ j then (newd, st)
    else
      let k := (if j = 0 then 0 else oldd (j - 1)) + 1
      let newd' := fun x => if x = j then k else newd x
      if st.bestsize < k then
        innerLoop blo bhi i js oldd newd' ⟨i + 1 - k, j + 1 - k, k⟩
      else innerLoop blo bhi i js oldd newd' st

/-- The outer `for i in range(alo, ahi)` loop of `find_longest_match`:
each row starts a fresh `newj2len` and then replaces `j2len` with it. -/
def kLoop (a : List Line) (b2j : Line → List Nat) (blo bhi : Nat) :
    List Nat → (Nat → Nat) → FLM → FLM
  | [], _, st => st
  | i :: is_, d, st =>
    let r := innerLoop blo bhi i (b2j (a.getD i dLine)) d (fun _ => 0) st
    kLoop a b2j blo bhi is_ r.1 r.2

/-- First `while` of `find_longest_match`: extend the best match backwards
over equal non-junk elements.  `fuel ≥ besti` suffices since `besti`
strictly decreases. -/
def extendBack (a b : List Line) (alo blo : Nat) : Nat → FLM → FLM
  | 0, st => st
  | fuel + 1, st =>
    if alo < st.besti ∧ blo < st.bestj ∧
        bjunk (b.getD (st.bestj - 1) dLine) = false ∧
        a.getD (st.besti - 1) dLine = b.getD (st.bestj - 1) dLine then
      extendBack a b alo blo fuel ⟨st.besti - 1, st.bestj - 1, st.bestsize + 1⟩
    else st

/-- Second `while`: extend forwards over equal non-junk elements.
`fuel ≥ ahi` suffices since `besti + bestsize < ahi` is required to step. -/
def extendFwd (a b : List Line) (ahi bhi : Nat) : Nat → FLM → FLM
  | 0, st => st
  | fuel + 1, st =>
    if st.besti + st.bestsize < ahi ∧ st.bestj + st.bestsize < bhi ∧
        bjunk (b.getD (st.bestj + st.bestsize) dLine) = false ∧
        a.getD (st.besti + st.bestsize) dLine =
          b.getD (st.bestj + st.bestsize) dLine then
      extendFwd a b ahi bhi fuel ⟨st.besti, st.bestj, st.bestsize + 1⟩
    else st

/-- Third `while`: extend backwards over equal junk elements (no-op here,
the junk set is empty; kept for fidelity). -/
def extendBackJ (a b : List Line) (alo blo : Nat) : Nat → FLM → FLM
  | 0, st => st
  | fuel + 1, st =>
    if alo < st.besti ∧ blo < st.bestj ∧
        bjunk (b.getD (st.bestj - 1) dLine) = true ∧
        a.getD (st.besti - 1) dLine = b.getD (st.bestj - 1) dLine then
      extendBackJ a b alo blo fuel ⟨st.besti - 1, st.bestj - 1, st.bestsize + 1⟩
    else st

/-- Fourth `while`: extend forwards over equal junk elements (no-op here). -/
def extendFwdJ (a b : List Line) (ahi bhi : Nat) : Nat → FLM → FLM
  | 0, st => st
  | fuel + 1, st =>
    if st.besti + st.bestsize < ahi ∧ st.bestj + st.bestsize < bhi ∧
        bjunk (b.getD (st.bestj + st.bestsize) dLine) = true ∧
        a.getD (st.besti + st.bestsize) dLine =
          b.getD (st.bestj + st.bestsize) dLine then
      extendFwdJ a b ahi bhi fuel ⟨st.besti, st.bestj, st.bestsize + 1⟩
    else st

/-- `find_longest_match(alo, ahi, blo, bhi)`. -/
def find_longest_match (a b : List Line) (b2j : Line → List Nat)
    (alo ahi blo bhi : Nat) : FLM :=
  let st1 := kLoop a b2j blo bhi (List.range' alo (ahi - alo)) (fun _ => 0) ⟨alo, blo, 0⟩
  let st2 := extendBack a b alo blo st1.besti st1
  let st3 := extendFwd a b ahi bhi ahi st2
  let st4 := extendBackJ a b alo blo st3.besti st3
  extendFwdJ a b ahi bhi ahi st4

/-- One matching block `(i, j, size)`. -/
structure Mt where
  i : Nat
  j : Nat
  k : Nat
deriving DecidableEq

/-- The `while queue:` loop of `get_matching_blocks`.  The queue is stored
top-first (Python `pop()` takes the last appended element, so the two
`append`s become pushes with the second ending up on top).  Each iteration
removes weight at least one from the queue (weights are proved below), so
`fuel := len(a) + len(b) + 1` suffices. -/
def gmbLoop (a b : List Line) (b2j : Line → List Nat) :
    Nat → List (Nat × Nat × Nat × Nat) → List Mt → List Mt
  | 0, _, acc => acc
  | _ + 1, [], acc => acc
  | fuel + 1, (alo, ahi, blo, bhi) :: rest, acc =>
    let m := find_longest_match a b b2j alo ahi blo bhi
    if m.bestsize ≠ 0 then
      let push1 := if alo < m.besti ∧ blo < m.bestj then [(alo, m.besti, blo, m.bestj)] else []
      let push2 :=
        if m.besti + m.bestsize < ahi ∧ m.bestj + m.bestsize < bhi then
          [(m.besti + m.bestsize, ahi, m.bestj + m.bestsize, bhi)]
        else []
      gmbLoop a b b2j fuel (push2 ++ push1 ++ rest) (acc ++ [⟨m.besti, m.bestj, m.bestsize⟩])
    else gmbLoop a b b2j fuel rest acc

/-- Lexicographic comparison of `(i, j, size)` triples
(`matching_blocks.sort()` sorts Python tuples lexicographically). -/
def leMt (x y : Mt) : Prop :=
  x.i < y.i ∨ (x.i = y.i ∧ (x.j < y.j ∨ (x.j = y.j ∧ x.k ≤ y.k)))

instance : DecidableRel leMt := fun x y => by unfold leMt; infer_instance

instance : IsTotal Mt leMt := ⟨fun x y => by unfold leMt; omega⟩

instance : IsTrans Mt leMt := ⟨fun x y z hxy hyz => by unfold leMt at *; omega⟩

/-- The adjacency-collapsing loop of `get_matching_blocks` (run with the
initial accumulator `i1 = j1 = k1 = 0`): adjacent blocks merge, and a
nonzero accumulated block is flushed before starting a new group and at the
end. -/
def collapseLoop : Nat → Nat → Nat → List Mt → List Mt
  | i1, j1, k1, [] => if k1 ≠ 0 then [⟨i1, j1, k1⟩] else []
  | i1, j1, k1, m :: rest =>
    if i1 + k1 = m.i ∧ j1 + k1 = m.j then collapseLoop i1 j1 (k1 + m.k) rest
    else
      (if k1 ≠ 0 then [⟨i1, j1, k1⟩] else []) ++ collapseLoop m.i m.j m.k rest

/-- `get_matching_blocks()`: queue recursion, lexicographic sort, adjacency
collapse, and the terminating sentinel `(la, lb, 0)`. -/
def get_matching_blocks (a b : List Line) : List Mt :=
  let b2j := mkB2j b
  let blocks := gmbLoop a b b2j (a.length + b.length + 1) [(0, a.length, 0, b.length)] []
  collapseLoop 0 0 0 (List.insertionSort leMt blocks) ++ [⟨a.length, b.length, 0⟩]

/-- Opcode tags of `get_opcodes`. -/
inductive Tag
  | equal
  | replace
  | delete
  | insert
deriving DecidableEq

/-- One opcode `(tag, i1, i2, j1, j2)`. -/
structure Opc where
  tag : Tag
  i1 : Nat
  i2 : Nat
  j1 : Nat
  j2 : Nat
deriving DecidableEq

/-- The block-consuming loop of `get_opcodes`: before each block a
`replace`/`delete`/`insert` opcode covers the unmatched gap, then the block
itself yields an `equal` opcode when its size is nonzero. -/
def opcodesLoop : Nat → Nat → List Mt → List Opc
  | _, _, [] => []
  | i, j, m :: rest =>
    (if i < m.i ∧ j < m.j then [⟨Tag.replace, i, m.i, j, m.j⟩]
     else if i < m.i then [⟨Tag.delete, i, m.i, j, m.j⟩]
     else if j < m.j then [⟨Tag.insert, i, m.i, j, m.j⟩]
     else []) ++
    (if m.k ≠ 0 then [⟨Tag.equal, m.i, m.i + m.k, m.j, m.j + m.k⟩] else []) ++
    opcodesLoop (m.i + m.k) (m.j + m.k) rest

/-- `SequenceMatcher(None, a, b).get_opcodes()`. -/
def get_opcodes (a b : List Line) : List Opc :=
  opcodesLoop 0 0 (get_matching_blocks a b)

-- ---------------------------------------------------------------------------
-- Main-loop diff projection (lines 443-470): builds `diff_lines` (symbol-
-- prefixed strings) and `line_nums` from the opcodes.

/-- Emission of one segment: `for line in seg: diff_lines.append(sym+line);
line_nums.append(idx + 1); idx += 1`.  Returns the emitted lines, the
emitted numbers and the final counter. -/
def emitLines (sym : Char) : List Line → Nat → (List Line × List Nat × Nat)
  | [], idx => ([], [], idx)
  | l :: ls, idx =>
    let rest := emitLines sym ls (idx + 1)
    ((sym :: l) :: rest.1, (idx + 1) :: rest.2.1, rest.2.2)

/-- The `for tag, i1, i2, j1, j2 in matcher.get_opcodes():` loop.  Slicing
`old_content[i1:i2]` is `(old.drop i1).take (i2 - i1)` (Python slices clamp,
as does `drop`/`take`).  In the `equal` branch the old counter advances once
per emitted context line (`old_idx += 1`), i.e. by the segment length. -/
def projectLoop (old_content new_content : List Line) :
    List Opc → Nat → Nat → (List Line × List Nat)
  | [], _, _ => ([], [])
  | op :: ops, old_idx, new_idx =>
    match op.tag with
    | Tag.equal =>
      let seg := (new_content.drop op.j1).take (op.j2 - op.j1)
      let e := emitLines ' ' seg new_idx
      let rest := projectLoop old_content new_content ops (old_idx + seg.length) e.2.2
      (e.1 ++ rest.1, e.2.1 ++ rest.2)
    | Tag.replace =>
      let oseg := (old_content.drop op.i1).take (op.i2 - op.i1)
      let nseg := (new_content.drop op.j1).take (op.j2 - op.j1)
      let em := emitLines '-' oseg old_idx
      let ep := emitLines '+' nseg new_idx
      let rest := projectLoop old_content new_content ops em.2.2 ep.2.2
      (em.1 ++ ep.1 ++ rest.1, em.2.1 ++ ep.2.1 ++ rest.2)
    | Tag.delete =>
      let oseg := (old_content.drop op.i1).take (op.i2 - op.i1)
      let em := emitLines '-' oseg old_idx
      let rest := projectLoop old_content new_content ops em.2.2 new_idx
      (em.1 ++ rest.1, em.2.1 ++ rest.2)
    | Tag.insert =>
      let nseg := (new_content.drop op.j1).take (op.j2 - op.j1)
      let ep := emitLines '+' nseg new_idx
      let rest := projectLoop old_content new_content ops old_idx ep.2.2
      (ep.1 ++ rest.1, ep.2.1 ++ rest.2)

/-- The whole projection pass (`old_idx = new_idx = 0`). -/
def projectPair (old_content new_content : List Line) (ops : List Opc) :
    List Line × List Nat :=
  projectLoop old_content new_content ops 0 0

/-- Row kinds of the projected diff. -/
inductive RKind
  | context
  | added
  | removed
deriving DecidableEq

/-- The kind encoded by a symbol-prefixed diff line (`add_diff_table` keys on
`line.startswith("+")` / `line.startswith("-")`). -/
def rkOf (l : Line) : RKind :=
  match l.head? with
  | some '+' => RKind.added
  | some '-' => RKind.removed
  | _ => RKind.context

/-- One render-ready row: kind, text with the one-character change symbol
stripped (`code_content = line[1:]`), and its line number. -/
structure DiffRow where
  kind : RKind
  text : Line
  num : Nat
deriving DecidableEq

/-- Rows from the parallel `diff_lines` / `line_nums` lists
(`zip(diff_lines, line_numbers)` in `add_diff_table`). -/
def toRows (p : List Line × List Nat) : List DiffRow :=
  (p.1.zip p.2).map fun q => ⟨rkOf q.1, q.1.drop 1, q.2⟩

/-- Keep the rows contributing to the new version (context and added). -/
def keepNew (l : Line) : Bool :=
  match l.head? with
  | some '-' => false
  | _ => true

/-- Keep the rows contributing to the old version (context and removed). -/
def keepOld (l : Line) : Bool :=
  match l.head? with
  | some '+' => false
  | _ => true

-- ---------------------------------------------------------------------------
-- Spec-side byte allow-lists (for comparison with `is_binary_string`)

/-- The allow-list exactly as the claim states it:
`{0x07,0x08,0x09,0x0A,0x0C,0x0D,0x1B} ∪ [0x20,0xFF) \ {0x7F}` — note the
half-open upper end excludes `0xFF`. -/
def specAllowedClaim (bt : Nat) : Prop :=
  bt ∈ [7, 8, 9, 10, 12, 13, 27] ∨ (0x20 ≤ bt ∧ bt < 0xFF ∧ bt ≠ 0x7F)

/-- The allow-list with the upper end amended to the code's
`range(0x20, 0x100)`: `{0x07,0x08,0x09,0x0A,0x0C,0x0D,0x1B} ∪ [0x20,0x100) \ {0x7F}`. -/
def specAllowedAmended (bt : Nat) : Prop :=
  bt ∈ [7, 8, 9, 10, 12, 13, 27] ∨ (0x20 ≤ bt ∧ bt < 0x100 ∧ bt ≠ 0x7F)

-- ---------------------------------------------------------------------------
-- Invariants used to verify the matcher

/-- Bounds of a best-match triple relative to a rectangle
`[alo, hi) × [blo, bhi)`. -/
def StOK (alo blo hi bhi : Nat) (st : FLM) : Prop :=
  alo ≤ st.besti ∧ blo ≤ st.bestj ∧ st.besti + st.bestsize ≤ hi ∧
    st.bestj + st.bestsize ≤ bhi

/-- The best match is a genuine pointwise match between `a` and `b`. -/
def RealSt (a b : List Line) (st : FLM) : Prop :=
  ∀ t, t < st.bestsize →
    a.getD (st.besti + t) dLine = b.getD (st.bestj + t) dLine

/-- Invariant of the `j2len` dictionary read while processing row `i` (its
entries were written during row `i - 1`): each entry is bounded by the
column offset and by the number of processed rows, and records a genuine
diagonal run ending at `(i - 1, x)`. -/
def DictOK (a b : List Line) (alo blo i : Nat) (dd : Nat → Nat) : Prop :=
  ∀ x, dd x ≤ x + 1 - blo ∧ dd x ≤ i - alo ∧
    ∀ t, t < dd x → t ≤ x ∧ a.getD (i - 1 - t) dLine = b.getD (x - t) dLine

/-- A queue rectangle `(alo, ahi, blo, bhi)` of `get_matching_blocks`. -/
abbrev Quad := Nat × Nat × Nat × Nat

/-- Rectangle well-formedness within the global index ranges. -/
def wfQ (la lb : Nat) (q : Quad) : Prop :=
  q.1 ≤ q.2.1 ∧ q.2.1 ≤ la ∧ q.2.2.1 ≤ q.2.2.2 ∧ q.2.2.2 ≤ lb

/-- The rectangle spanned by one matching block. -/
def mtQ (m : Mt) : Quad := (m.i, m.i + m.k, m.j, m.j + m.k)

/-- `x` lies strictly below-left of `y` (staircase order). -/
def befQ (x y : Quad) : Prop := x.2.1 ≤ y.1 ∧ x.2.2.2 ≤ y.2.2.1

/-- Staircase comparability. -/
def compQ (x y : Quad) : Prop := befQ x y ∨ befQ y x

/-- `x` is a sub-rectangle of `y`. -/
def subQ (x y : Quad) : Prop :=
  y.1 ≤ x.1 ∧ x.2.1 ≤ y.2.1 ∧ y.2.2.1 ≤ x.2.2.1 ∧ x.2.2.2 ≤ y.2.2.2

/-- A matching block accumulated by the queue loop: nonzero size, inside the
global ranges, and a genuine match. -/
def MOK (la lb : Nat) (a b : List Line) (m : Mt) : Prop :=
  1 ≤ m.k ∧ m.i + m.k ≤ la ∧ m.j + m.k ≤ lb ∧
    ∀ t, t < m.k → a.getD (m.i + t) dLine = b.getD (m.j + t) dLine

/-- A (possibly zero-sized) block inside the global ranges carrying a
genuine match; holds for everything `collapseLoop` emits and the sentinel. -/
def MBnd (la lb : Nat) (a b : List Line) (m : Mt) : Prop :=
  m.i + m.k ≤ la ∧ m.j + m.k ≤ lb ∧
    ∀ t, t < m.k → a.getD (m.i + t) dLine = b.getD (m.j + t) dLine

/-- Weight of a queue rectangle. -/
def qW (q : Quad) : Nat := (q.2.1 - q.1) + (q.2.2.2 - q.2.2.1) + 1

/-- Total weight of the queue; strictly decreases at every `gmbLoop` step. -/
def queueW (queue : List Quad) : Nat := (queue.map qW).sum

/-- Consecutive blocks are staircase-adjacent (the output shape of the
sorted block list). -/
def AdjChain : List Mt → Prop
  | [] => True
  | [_] => True
  | m1 :: m2 :: rest =>
    m1.i + m1.k ≤ m2.i ∧ m1.j + m1.k ≤ m2.j ∧ AdjChain (m2 :: rest)

/-- Each block starts at or after the running `(i, j)` accumulators of
`get_opcodes` and advances them to its end. -/
def chainSteps : Nat → Nat → List Mt → Prop
  | _, _, [] => True
  | i, j, m :: rest => i ≤ m.i ∧ j ≤ m.j ∧ chainSteps (m.i + m.k) (m.j + m.k) rest

/-- Final `(i, j)` accumulators of `get_opcodes` after consuming the blocks. -/
def finalAcc : Nat × Nat → List Mt → Nat × Nat
  | p, [] => p
  | _, m :: rest => finalAcc (m.i + m.k, m.j + m.k) rest

/-- The opcode list is a contiguous partition of `[i, len a) × [j, len b)`:
each opcode starts where the previous ended, stays in range, `equal` opcodes
cover genuinely equal slices, `delete`/`insert` opcodes have an empty
new/old range. -/
def OpsSeq (a b : List Line) : Nat → Nat → List Opc → Prop
  | i, j, [] => i = a.length ∧ j = b.length
  | i, j, op :: rest =>
    op.i1 = i ∧ op.j1 = j ∧ op.i1 ≤ op.i2 ∧ op.j1 ≤ op.j2 ∧
    op.i2 ≤ a.length ∧ op.j2 ≤ b.length ∧
    (op.tag = Tag.equal →
      (a.drop op.i1).take (op.i2 - op.i1) = (b.drop op.j1).take (op.j2 - op.j1)) ∧
    (op.tag = Tag.delete → op.j1 = op.j2) ∧
    (op.tag = Tag.insert → op.i1 = op.i2) ∧
    OpsSeq a b op.i2 op.j2 rest

/-- The half-open old range of an opcode as an index list. -/
def oldRangeList (op : Opc) : List Nat := List.range' op.i1 (op.i2 - op.i1)

/-- The half-open new range of an opcode as an index list. -/
def newRangeList (op : Opc) : List Nat := List.range' op.j1 (op.j2 - op.j1)

/-- Diagonal-run table for the self-diff analysis (`b = a`): `Da a i j` is
exactly the value `newj2len[j]` computed while `find_longest_match`
processes row `i` of the full rectangle, i.e. the length of the run of
indexable (non-popular) matches ending at `(i, j)`. -/
def Da (a : List Line) : Nat → Nat → Nat
  | 0, j => if j ∈ mkB2j a (a.getD 0 dLine) then 1 else 0
  | i + 1, j =>
    if j ∈ mkB2j a (a.getD (i + 1) dLine) then
      (if j = 0 then 1 else Da a i (j - 1) + 1)
    else 0

-- ---------------------------------------------------------------------------
-- Helper lemmas (classifier, decoding, lexer resolution, styling)

lemma textchars_iff (bt : Nat) : textchars bt = true ↔ specAllowedAmended bt := by
  simp only [textchars, specAllowedAmended, Bool.or_eq_true, Bool.and_eq_true,
    decide_eq_true_eq]
  tauto

lemma is_binary_string_iff (bs : List Nat) :
    is_binary_string bs = true ↔ ∃ bt ∈ bs, ¬ specAllowedAmended bt := by
  simp only [is_binary_string, List.any_eq_true, Bool.not_eq_true']
  constructor
  · rintro ⟨x, hx, hfx⟩
    exact ⟨x, hx, fun hs => by rw [(textchars_iff x).mpr hs] at hfx; cases hfx⟩
  · rintro ⟨x, hx, hs⟩
    refine ⟨x, hx, ?_⟩
    cases h : textchars x
    · rfl
    · exact absurd ((textchars_iff x).mp h) hs

lemma utf8Step_len (b0 : Nat) (rest : List Nat) :
    1 ≤ stepLen (utf8Step (b0 :: rest)) ∧
      stepLen (utf8Step (b0 :: rest)) ≤ (b0 :: rest).length := by
  rcases rest with _ | ⟨b1, _ | ⟨b2, _ | ⟨b3, rest3⟩⟩⟩ <;>
    (simp only [utf8Step]; split_ifs <;> simp only [stepLen, List.length_cons] <;> omega)

lemma utf8DecodeLoop_ignore_replace (fuel : Nat) :
    ∀ bs : List Nat, bs.length ≤ fuel →
      ∃ cs ds, utf8DecodeLoop DecErrors.ignore fuel bs = Except.ok cs ∧
        utf8DecodeLoop DecErrors.replace fuel bs = Except.ok ds ∧ cs.Sublist ds := by
  induction fuel with
  | zero =>
    intro bs hlen
    have : bs = [] := List.eq_nil_of_length_eq_zero (Nat.le_zero.mp hlen)
    subst this
    exact ⟨[], [], rfl, rfl, List.Sublist.refl []⟩
  | succ fuel ih =>
    intro bs hlen
    match bs with
    | [] => exact ⟨[], [], rfl, rfl, List.Sublist.refl []⟩
    | b0 :: rest =>
      have hstep := utf8Step_len b0 rest
      match hs : utf8Step (b0 :: rest) with
      | Utf8Step.ok cp len =>
        rw [hs] at hstep; simp only [stepLen] at hstep
        have hdrop : ((b0 :: rest).drop len).length ≤ fuel := by
          rw [List.length_drop]; simp only [List.length_cons] at *; omega
        obtain ⟨cs, ds, h1, h2, h3⟩ := ih ((b0 :: rest).drop len) hdrop
        refine ⟨cp :: cs, cp :: ds, ?_, ?_, List.Sublist.cons₂ cp h3⟩
        · simp only [utf8DecodeLoop, hs, h1, Except.map]
        · simp only [utf8DecodeLoop, hs, h2, Except.map]
      | Utf8Step.err len =>
        rw [hs] at hstep; simp only [stepLen] at hstep
        have hdrop : ((b0 :: rest).drop len).length ≤ fuel := by
          rw [List.length_drop]; simp only [List.length_cons] at *; omega
        obtain ⟨cs, ds, h1, h2, h3⟩ := ih ((b0 :: rest).drop len) hdrop
        refine ⟨cs, 0xFFFD :: ds, ?_, ?_, List.Sublist.cons 0xFFFD h3⟩
        · simp only [utf8DecodeLoop, hs, h1]
        · simp only [utf8DecodeLoop, hs, h2, Except.map]

lemma head?_dropWhile_false {α : Type} (p : α → Bool) :
    ∀ (l : List α) (x : α), (l.dropWhile p).head? = some x → p x = false := by
  intro l
  induction l with
  | nil => intro x h; cases h
  | cons c cs ih =>
    intro x h
    by_cases hc : p c = true
    · rw [List.dropWhile_cons_of_pos hc] at h
      exact ih x h
    · rw [List.dropWhile_cons_of_neg hc] at h
      cases h
      exact Bool.eq_false_iff.mpr hc

lemma rstripNewline_decomp (v : List Char) :
    v = rstripNewline v ++
      List.replicate (v.length - (rstripNewline v).length) '\n' := by
  unfold rstripNewline
  set p : Char → Bool := fun c => decide (c = '\n') with hp
  have hsplit : v.reverse.takeWhile p ++ v.reverse.dropWhile p = v.reverse :=
    List.takeWhile_append_dropWhile p v.reverse
  have hrep : (v.reverse.takeWhile p).reverse =
      List.replicate (v.reverse.takeWhile p).length '\n' := by
    rw [List.eq_replicate_iff]
    refine ⟨List.length_reverse _, ?_⟩
    intro c hc
    have := List.mem_takeWhile_imp (List.mem_reverse.mp hc)
    simpa [hp] using this
  have hlen : v.length - (v.reverse.dropWhile p).reverse.length =
      (v.reverse.takeWhile p).length := by
    have := congrArg List.length hsplit
    simp only [List.length_append, List.length_reverse] at *
    omega
  calc v = v.reverse.reverse := (List.reverse_reverse v).symm
    _ = (v.reverse.takeWhile p ++ v.reverse.dropWhile p).reverse := by rw [hsplit]
    _ = (v.reverse.dropWhile p).reverse ++ (v.reverse.takeWhile p).reverse := by
        rw [List.reverse_append]
    _ = (v.reverse.dropWhile p).reverse ++
          List.replicate (v.length - (v.reverse.dropWhile p).reverse.length) '\n' := by
        rw [hrep, hlen]

lemma rstripNewline_getLast (v : List Char) (c : Char) :
    (rstripNewline v).getLast? = some c → c ≠ '\n' := by
  unfold rstripNewline
  intro h
  rw [List.getLast?_reverse] at h
  have := head?_dropWhile_false (fun c => decide (c = '\n')) v.reverse c h
  simpa using this

lemma spanText_ne_nil (v : List Char) : spanText v ≠ [] := by
  unfold spanText
  by_cases h : rstripNewline v = []
  · simp [h]
  · simp [h]

lemma resolveLexer_ok {L : Type} (gf : Line → Line → Except Unit L)
    (gl : Line → Except Unit L) (file sample : Line) (lx : L)
    (h : gf file sample = Except.ok lx) :
    resolveLexer gf gl file sample = Except.ok lx := by
  unfold resolveLexer
  rw [h]

lemma resolveLexer_fallback {L : Type} (gf : Line → Line → Except Unit L)
    (gl : Line → Except Unit L) (file sample : Line) (e : Unit)
    (h : gf file sample = Except.error e) :
    resolveLexer gf gl file sample = gl (orEmpty sample) := by
  unfold resolveLexer
  rw [h]

lemma applyStylePart_other (st : RunStyle) (part : List Char)
    (h1 : part ≠ "bold".toList) (h2 : part ≠ "italic".toList)
    (h3 : ¬(part.head? = some '#' ∧ part.length = 7)) :
    applyStylePart st part = st := by
  unfold applyStylePart
  rw [if_neg h1, if_neg h2, if_neg h3]

-- ---------------------------------------------------------------------------
-- Claim C1

/-- C1: the binary-content heuristic marks a buffer binary iff it contains a
byte outside the allow-list — as stated, with the allow-list's upper end
written `[0x20, 0xFF)`, this is FALSE: the code's `range(0x20, 0x100)`
also allows `0xFF`, so the buffer `[0xFF]` contains a byte outside the
claimed allow-list yet is not marked binary. -/
theorem c1_counterexample :
    ¬ (is_binary_string [0xFF] = true ↔
        ∃ bt ∈ [(0xFF : Nat)], ¬ specAllowedClaim bt) := by
  intro h
  have h2 : ¬ is_binary_string [0xFF] = true := by decide
  exact h2 (h.mpr ⟨0xFF, by decide, by unfold specAllowedClaim; decide⟩)

/-- C1 (amended: allow-list upper end is `0x100`, i.e. `0xFF` is allowed):
a buffer is marked binary iff it contains a byte outside
`{0x07,0x08,0x09,0x0A,0x0C,0x0D,0x1B} ∪ [0x20,0x100) \ {0x7F}`; the empty
buffer is never marked binary; when either buffer of the pair is marked
binary the classification is `image` if the MIME lookup says the path is an
image and `binary` otherwise, else `text`. -/
theorem c1_binary_heuristic_and_classification :
    (∀ bs : List Nat, is_binary_string bs = true ↔ ∃ bt ∈ bs, ¬ specAllowedAmended bt) ∧
    is_binary_string [] = false ∧
    (∀ (g : Line → Option Line) (old_bytes new_bytes : List Nat) (file : Line),
      (is_binary_string new_bytes || is_binary_string old_bytes) = true →
      classify g old_bytes new_bytes file =
        (if is_image_file g file then ContentKind.image else ContentKind.binary)) ∧
    (∀ (g : Line → Option Line) (old_bytes new_bytes : List Nat) (file : Line),
      (is_binary_string new_bytes || is_binary_string old_bytes) = false →
      classify g old_bytes new_bytes file = ContentKind.text) := by
  refine ⟨is_binary_string_iff, rfl, ?_, ?_⟩
  · intro g ob nb file h
    unfold classify
    rw [h]
    rfl
  · intro g ob nb file h
    unfold classify
    rw [h]
    rfl

/-- Witness for `c1_binary_heuristic_and_classification` at a concrete
binary input. -/
theorem c1_witness :
    classify (fun _ => none) [] [0] [] =
      (if is_image_file (fun _ => none) [] then ContentKind.image
       else ContentKind.binary) :=
  c1_binary_heuristic_and_classification.2.2.1 (fun _ => none) [] [0] [] (by decide)

-- ---------------------------------------------------------------------------
-- Claim C2

/-- C2: as stated ("invalid byte sequences are substituted with a replacement
rather than dropped") this is FALSE: the code decodes with
`errors="ignore"`, which drops the invalid byte — on `[0x61, 0xFF, 0x62]`
the output is `[0x61, 0x62]`, not `[0x61, 0xFFFD, 0x62]`. -/
theorem c2_counterexample :
    utf8Decode DecErrors.ignore [97, 255, 98] = Except.ok [97, 98] ∧
    utf8Decode DecErrors.ignore [97, 255, 98] ≠ Except.ok [97, 0xFFFD, 98] := by
  refine ⟨rfl, ?_⟩
  intro h
  rw [show utf8Decode DecErrors.ignore [97, 255, 98] = Except.ok [97, 98] from rfl] at h
  simp at h

/-- C2 (amended: decoding failures are recovered, never surfaced, but the
invalid byte sequences are dropped — `errors="ignore"` — rather than
substituted with a replacement): decoding with `ignore` always succeeds,
and its output is the `replace`-mode output with the replacement characters
removed (a sublist of it). -/
theorem c2_decode_never_raises_and_drops :
    ∀ bs : List Nat, ∃ cs ds,
      utf8Decode DecErrors.ignore bs = Except.ok cs ∧
      utf8Decode DecErrors.replace bs = Except.ok ds ∧
      cs.Sublist ds :=
  fun bs => utf8DecodeLoop_ignore_replace bs.length bs (Nat.le_refl _)

-- ---------------------------------------------------------------------------
-- Claim C3

/-- C3: as stated ("three-stage fallback chain … so a lexer-resolution
failure is never surfaced"), this is FALSE of the code: there are only two
stages and no plain-text fallback, so when both pygments guessers raise
(which `guess_lexer` does, e.g., on an empty sample) the exception
propagates out of the artifact loop. -/
theorem c3_counterexample :
    resolveLexer (fun (_ _ : Line) => (Except.error () : Except Unit Nat))
      (fun _ => Except.error ()) [] [] = Except.error () := rfl

/-- C3 (amended: the chain has two stages — filename-based guessing over the
sample, then content-only guessing on `sample or ""` — and a failure of the
second stage is surfaced to the caller): a stage-one success is returned
as-is; a stage-one exception falls back to `guess_lexer`; resolution
succeeds iff stage one or stage two succeeds; and the guessing sample is
the newline-join of the new content, or of the old content when the new
content is empty. -/
theorem c3_lexer_two_stage_chain :
    (∀ (L : Type) (gf : Line → Line → Except Unit L) (gl : Line → Except Unit L)
        (file sample : Line) (lx : L), gf file sample = Except.ok lx →
      resolveLexer gf gl file sample = Except.ok lx) ∧
    (∀ (L : Type) (gf : Line → Line → Except Unit L) (gl : Line → Except Unit L)
        (file sample : Line) (e : Unit), gf file sample = Except.error e →
      resolveLexer gf gl file sample = gl (orEmpty sample)) ∧
    (∀ (L : Type) (gf : Line → Line → Except Unit L) (gl : Line → Except Unit L)
        (file sample : Line),
      (resolveLexer gf gl file sample).isOk =
        ((gf file sample).isOk || (gl (orEmpty sample)).isOk)) ∧
    (∀ old_content new_content : List Line, new_content ≠ [] →
      sampleOf old_content new_content = List.intercalate ['\n'] new_content) ∧
    (∀ old_content : List Line,
      sampleOf old_content [] = List.intercalate ['\n'] old_content) := by
  refine ⟨fun _ => resolveLexer_ok, fun _ => resolveLexer_fallback, ?_, ?_, ?_⟩
  · intro L gf gl file sample
    unfold resolveLexer
    cases h : gf file sample <;> simp [Except.isOk, Except.toBool]
  · intro oc nc h
    unfold sampleOf
    rw [if_neg h]
  · intro oc
    unfold sampleOf
    rw [if_pos rfl]

/-- Witness for `c3_lexer_two_stage_chain` at a concrete guesser pair. -/
theorem c3_witness :
    resolveLexer (fun (_ _ : Line) => (Except.ok 0 : Except Unit Nat))
      (fun _ => Except.error ()) [] [] = Except.ok 0 :=
  c3_lexer_two_stage_chain.1 Nat (fun _ _ => Except.ok 0)
    (fun _ => Except.error ()) [] [] 0 rfl

-- ---------------------------------------------------------------------------
-- Claim C8

/-- C8: classification is total — it returns exactly one of
`text`/`binary`/`image` for every pair of byte buffers and path (the
embedding is a total function; every operation of the Python branch is
non-raising) — and a filename on which the MIME lookup yields no type
(malformed/unknown) fails closed to the non-image path: the result is
never `image`. -/
theorem c8_classify_total_and_fail_closed :
    (∀ (g : Line → Option Line) (old_bytes new_bytes : List Nat) (file : Line),
      classify g old_bytes new_bytes file = ContentKind.text ∨
      classify g old_bytes new_bytes file = ContentKind.binary ∨
      classify g old_bytes new_bytes file = ContentKind.image) ∧
    (∀ (g : Line → Option Line) (old_bytes new_bytes : List Nat) (file : Line),
      g file = none →
      classify g old_bytes new_bytes file ≠ ContentKind.image) := by
  constructor
  · intro g ob nb file
    unfold classify
    split
    · split
      · exact Or.inr (Or.inr rfl)
      · exact Or.inr (Or.inl rfl)
    · exact Or.inl rfl
  · intro g ob nb file h
    unfold classify is_image_file
    rw [h]
    split
    · intro hc; cases hc
    · intro hc; cases hc

/-- Witness for `c8_classify_total_and_fail_closed` with a MIME lookup that
fails on the path. -/
theorem c8_witness :
    classify (fun _ => none) [0] [] [] ≠ ContentKind.image :=
  c8_classify_total_and_fail_closed.2 (fun _ => none) [0] [] [] rfl

-- ---------------------------------------------------------------------------
-- Claim C9

/-- C9: per token, the trailing run of line terminators is dropped (`v`
decomposes as the kept part plus trailing newlines, and the kept part does
not end in a newline); an empty remainder is replaced by the single
non-breaking placeholder, so a span text is never empty; a row produces one
span per token; and a row with empty text produces exactly one span, the
placeholder (under the plain-text passthrough lexer, the external provider
modelled from the spec). -/
theorem c9_token_styling :
    (∀ v : List Char, spanText v ≠ []) ∧
    (∀ v : List Char, rstripNewline v ≠ [] → spanText v = rstripNewline v) ∧
    (∀ v : List Char, rstripNewline v = [] → spanText v = [nbspC]) ∧
    (∀ v : List Char,
      v = rstripNewline v ++ List.replicate (v.length - (rstripNewline v).length) '\n') ∧
    (∀ (v : List Char) (c : Char), (rstripNewline v).getLast? = some c → c ≠ '\n') ∧
    (∀ (theme : TokCat → Option (List Char)) (toks : List (TokCat × List Char)),
      (styleRow theme toks).length = toks.length ∧
      ∀ sp ∈ styleRow theme toks, sp.text ≠ []) ∧
    (∀ theme : TokCat → Option (List Char),
      (styleRow theme (plainLex [])).map StyledSpan.text = [[nbspC]]) := by
  refine ⟨spanText_ne_nil, ?_, ?_, rstripNewline_decomp, rstripNewline_getLast, ?_, ?_⟩
  · intro v h
    unfold spanText
    rw [if_neg h]
  · intro v h
    unfold spanText
    rw [h]
    rfl
  · intro theme toks
    constructor
    · simp [styleRow]
    · intro sp hsp
      simp only [styleRow, List.mem_map] at hsp
      obtain ⟨tok, _, htok⟩ := hsp
      rw [← htok]
      exact spanText_ne_nil tok.2
  · intro theme
    simp [styleRow, plainLex, styleSpan, spanText, rstripNewline]

/-- Witness for `c9_token_styling` at a token whose text survives
stripping. -/
theorem c9_witness :
    rstripNewline ['a', '\n'] ≠ [] ∧ spanText ['a', '\n'] = rstripNewline ['a', '\n'] :=
  ⟨by decide, c9_token_styling.2.1 ['a', '\n'] (by decide)⟩

-- ---------------------------------------------------------------------------
-- Claim C10

/-- C10: a theme attribute word other than exactly `bold`, exactly `italic`,
or a seven-character token beginning with `#` leaves the run style
unchanged; in particular `underline`, `bg:#00ff00` and the short form
`#0f0` have no effect. -/
theorem c10_style_words_ignored :
    (∀ (st : RunStyle) (part : List Char), part ≠ "bold".toList →
      part ≠ "italic".toList → ¬(part.head? = some '#' ∧ part.length = 7) →
      applyStylePart st part = st) ∧
    (∀ st : RunStyle, applyStyleParts st (splitWs "underline".toList) = st) ∧
    (∀ st : RunStyle, applyStyleParts st (splitWs "bg:#00ff00".toList) = st) ∧
    (∀ st : RunStyle, applyStylePart st "#0f0".toList = st) := by
  refine ⟨applyStylePart_other, ?_, ?_, ?_⟩
  · intro st
    rw [show splitWs "underline".toList = ["underline".toList] from by decide]
    exact applyStylePart_other st "underline".toList (by decide) (by decide) (by decide)
  · intro st
    rw [show splitWs "bg:#00ff00".toList = ["bg:#00ff00".toList] from by decide]
    exact applyStylePart_other st "bg:#00ff00".toList (by decide) (by decide) (by decide)
  · intro st
    exact applyStylePart_other st "#0f0".toList (by decide) (by decide) (by decide)

/-- Witness for `c10_style_words_ignored` at a concrete style state and
word. -/
theorem c10_witness :
    applyStylePart ⟨false, false, none⟩ "underline".toList = ⟨false, false, none⟩ :=
  c10_style_words_ignored.1 ⟨false, false, none⟩ "underline".toList
    (by decide) (by decide) (by decide)

-- ---------------------------------------------------------------------------
-- Lemmas about `positions` / `mkB2j`

lemma positionsAux_mem (e : Line) :
    ∀ (l : List Line) (i j : Nat),
      j ∈ positionsAux e i l ↔ (i ≤ j ∧ j - i < l.length ∧ l.getD (j - i) dLine = e) := by
  intro l
  induction l with
  | nil => intro i j; simp [positionsAux]
  | cons x xs ih =>
    intro i j
    unfold positionsAux
    by_cases hx : x = e
    · rw [if_pos hx]
      simp only [List.mem_cons, ih (i + 1) j]
      constructor
      · rintro (rfl | ⟨h1, h2, h3⟩)
        · exact ⟨Nat.le_refl _, by simp, by simpa using hx⟩
        · refine ⟨by omega, ?_, ?_⟩
          · simp only [List.length_cons]; omega
          · rw [show j - i = (j - (i + 1)) + 1 from by omega]
            simpa using h3
      · rintro ⟨h1, h2, h3⟩
        by_cases hj : j = i
        · exact Or.inl hj
        · refine Or.inr ⟨by omega, ?_, ?_⟩
          · simp only [List.length_cons] at h2; omega
          · rw [show j - i = (j - (i + 1)) + 1 from by omega] at h3
            simpa using h3
    · rw [if_neg hx]
      rw [ih (i + 1) j]
      constructor
      · rintro ⟨h1, h2, h3⟩
        refine ⟨by omega, ?_, ?_⟩
        · simp only [List.length_cons]; omega
        · rw [show j - i = (j - (i + 1)) + 1 from by omega]
          simpa using h3
      · rintro ⟨h1, h2, h3⟩
        have hj : j ≠ i := by
          intro hji
          subst hji
          simp at h3
          exact hx h3
        refine ⟨by omega, ?_, ?_⟩
        · simp only [List.length_cons] at h2; omega
        · rw [show j - i = (j - (i + 1)) + 1 from by omega] at h3
          simpa using h3

lemma positions_mem (b : List Line) (e : Line) (j : Nat) :
    j ∈ positions b e ↔ (j < b.length ∧ b.getD j dLine = e) := by
  unfold positions
  rw [positionsAux_mem]
  simp

lemma positionsAux_lb (e : Line) :
    ∀ (l : List Line) (i : Nat), ∀ j ∈ positionsAux e i l, i ≤ j := by
  intro l
  induction l with
  | nil => intro i j h; cases h
  | cons x xs ih =>
    intro i j h
    unfold positionsAux at h
    by_cases hx : x = e
    · rw [if_pos hx] at h
      rcases List.mem_cons.mp h with rfl | h2
      · exact Nat.le_refl _
      · exact Nat.le_of_succ_le (ih (i + 1) j h2)
    · rw [if_neg hx] at h
      exact Nat.le_of_succ_le (ih (i + 1) j h)

lemma positionsAux_sorted (e : Line) :
    ∀ (l : List Line) (i : Nat), List.Pairwise (· < ·) (positionsAux e i l) := by
  intro l
  induction l with
  | nil => intro i; exact List.Pairwise.nil
  | cons x xs ih =>
    intro i
    unfold positionsAux
    by_cases hx : x = e
    · rw [if_pos hx]
      exact List.Pairwise.cons
        (fun j hj => Nat.lt_of_lt_of_le (Nat.lt_succ_self i) (positionsAux_lb e xs (i + 1) j hj))
        (ih (i + 1))
    · rw [if_neg hx]
      exact ih (i + 1)

lemma mkB2j_mem (b : List Line) (e : Line) (j : Nat) (h : j ∈ mkB2j b e) :
    j < b.length ∧ b.getD j dLine = e := by
  unfold mkB2j at h
  split at h
  · cases h
  · exact (positions_mem b e j).mp h

lemma mkB2j_sorted (b : List Line) (e : Line) :
    List.Pairwise (· < ·) (mkB2j b e) := by
  unfold mkB2j
  split
  · exact List.Pairwise.nil
  · exact positionsAux_sorted e b 0

-- ---------------------------------------------------------------------------
-- Bounds and genuineness of `find_longest_match`

lemma StOK_mono (alo blo h1 h2 bhi : Nat) (st : FLM) (h : StOK alo blo h1 bhi st)
    (hle : h1 ≤ h2) : StOK alo blo h2 bhi st := by
  unfold StOK at *
  omega

lemma innerLoop_inv (a b : List Line) (alo blo bhi i : Nat) (hi : alo ≤ i) :
    ∀ (js : List Nat) (oldd newd : Nat → Nat) (st : FLM),
      (∀ j ∈ js, j < b.length ∧ b.getD j dLine = a.getD i dLine) →
      StOK alo blo (i + 1) bhi st → RealSt a b st →
      DictOK a b alo blo i oldd → DictOK a b alo blo (i + 1) newd →
      StOK alo blo (i + 1) bhi (innerLoop blo bhi i js oldd newd st).2 ∧
      RealSt a b (innerLoop blo bhi i js oldd newd st).2 ∧
      DictOK a b alo blo (i + 1) (innerLoop blo bhi i js oldd newd st).1 := by
  intro js
  induction js with
  | nil =>
    intro oldd newd st _ h1 h2 _ h4
    exact ⟨h1, h2, h4⟩
  | cons j js ih =>
    intro oldd newd st hjs h1 h2 h3 h4
    simp only [innerLoop]
    by_cases hblo : j < blo
    · rw [if_pos hblo]
      exact ih oldd newd st (fun x hx => hjs x (List.mem_cons_of_mem j hx)) h1 h2 h3 h4
    · rw [if_neg hblo]
      by_cases hbhi : bhi ≤ j
      · rw [if_pos hbhi]
        exact ⟨h1, h2, h4⟩
      · rw [if_neg hbhi]
        have hjb := hjs j (List.mem_cons_self j js)
        -- the computed run length and its properties
        have hk_le_j : (if j = 0 then 0 else oldd (j - 1)) + 1 ≤ j + 1 - blo := by
          by_cases hj0 : j = 0
          · rw [if_pos hj0]; omega
          · rw [if_neg hj0]
            have := (h3 (j - 1)).1
            omega
        have hk_le_i : (if j = 0 then 0 else oldd (j - 1)) + 1 ≤ i + 1 - alo := by
          by_cases hj0 : j = 0
          · rw [if_pos hj0]; omega
          · rw [if_neg hj0]
            have := (h3 (j - 1)).2.1
            omega
        have hrun : ∀ s, s < (if j = 0 then 0 else oldd (j - 1)) + 1 →
            a.getD (i - s) dLine = b.getD (j - s) dLine := by
          intro s hs
          by_cases hs0 : s = 0
          · subst hs0
            simpa using hjb.2.symm
          · have hj0 : j ≠ 0 := by
              intro h0
              rw [if_pos h0] at hs
              omega
            rw [if_neg hj0] at hs
            have hsd : s - 1 < oldd (j - 1) := by omega
            obtain ⟨hts, heq⟩ := (h3 (j - 1)).2.2 (s - 1) hsd
            have e1 : i - 1 - (s - 1) = i - s := by omega
            have e2 : j - 1 - (s - 1) = j - s := by omega
            rw [e1, e2] at heq
            exact heq
        set k := (if j = 0 then 0 else oldd (j - 1)) + 1 with hk
        have hnewd' : DictOK a b alo blo (i + 1) (fun x => if x = j then k else newd x) := by
          intro x
          simp only
          by_cases hx : x = j
          · rw [if_pos hx]
            subst hx
            refine ⟨by omega, by omega, ?_⟩
            intro t ht
            refine ⟨by omega, ?_⟩
            have e1 : i + 1 - 1 - t = i - t := by omega
            rw [e1]
            exact hrun t ht
          · rw [if_neg hx]
            exact h4 x
        by_cases hup : st.bestsize < k
        · rw [if_pos hup]
          refine ih oldd _ _ (fun x hx => hjs x (List.mem_cons_of_mem j hx)) ?_ ?_ h3 hnewd'
          · unfold StOK
            dsimp only
            omega
          · unfold RealSt
            intro t ht
            simp only at ht ⊢
            have e1 : i + 1 - k + t = i - (k - 1 - t) := by omega
            have e2 : j + 1 - k + t = j - (k - 1 - t) := by omega
            rw [e1, e2]
            exact hrun (k - 1 - t) (by omega)
        · rw [if_neg hup]
          exact ih oldd _ st (fun x hx => hjs x (List.mem_cons_of_mem j hx)) h1 h2 h3 hnewd'

lemma kLoop_inv (a b : List Line) (b2j : Line → List Nat) (alo blo bhi : Nat)
    (hb2j : ∀ e j, j ∈ b2j e → j < b.length ∧ b.getD j dLine = e) :
    ∀ (m i : Nat) (d : Nat → Nat) (st : FLM), alo ≤ i →
      StOK alo blo i bhi st → RealSt a b st → DictOK a b alo blo i d →
      StOK alo blo (i + m) bhi (kLoop a b2j blo bhi (List.range' i m) d st) ∧
      RealSt a b (kLoop a b2j blo bhi (List.range' i m) d st) := by
  intro m
  induction m with
  | zero =>
    intro i d st _ h1 h2 _
    exact ⟨by simpa using h1, h2⟩
  | succ m ih =>
    intro i d st hi h1 h2 h3
    rw [List.range'_succ]
    simp only [kLoop]
    have hzero : DictOK a b alo blo (i + 1) (fun _ => 0) := by
      intro x
      refine ⟨Nat.zero_le _, Nat.zero_le _, ?_⟩
      intro t ht
      simp at ht
    obtain ⟨hs1, hs2, hs3⟩ := innerLoop_inv a b alo blo bhi i hi
      (b2j (a.getD i dLine)) d (fun _ => 0) st
      (fun j hj => hb2j (a.getD i dLine) j hj)
      (StOK_mono alo blo i (i + 1) bhi st h1 (by omega)) h2 h3 hzero
    have := ih (i + 1) _ _ (by omega) hs1 hs2 hs3
    rwa [show i + 1 + m = i + (m + 1) from by omega] at this

lemma extendBack_inv (a b : List Line) (alo blo hi bhi : Nat) :
    ∀ (fuel : Nat) (st : FLM), StOK alo blo hi bhi st → RealSt a b st →
      StOK alo blo hi bhi (extendBack a b alo blo fuel st) ∧
      RealSt a b (extendBack a b alo blo fuel st) := by
  intro fuel
  induction fuel with
  | zero => intro st h1 h2; exact ⟨h1, h2⟩
  | succ fuel ih =>
    intro st h1 h2
    simp only [extendBack]
    split
    · rename_i hcond
      apply ih
      · unfold StOK at *
        simp only
        omega
      · unfold RealSt at *
        intro t ht
        simp only at ht ⊢
        by_cases ht0 : t = 0
        · subst ht0
          simpa using hcond.2.2.2
        · have e1 : st.besti - 1 + t = st.besti + (t - 1) := by
            unfold StOK at h1; omega
          have e2 : st.bestj - 1 + t = st.bestj + (t - 1) := by
            unfold StOK at h1; omega
          rw [e1, e2]
          exact h2 (t - 1) (by omega)
    · exact ⟨h1, h2⟩

lemma extendFwd_inv (a b : List Line) (alo blo ahi bhi : Nat) :
    ∀ (fuel : Nat) (st : FLM), StOK alo blo ahi bhi st → RealSt a b st →
      StOK alo blo ahi bhi (extendFwd a b ahi bhi fuel st) ∧
      RealSt a b (extendFwd a b ahi bhi fuel st) := by
  intro fuel
  induction fuel with
  | zero => intro st h1 h2; exact ⟨h1, h2⟩
  | succ fuel ih =>
    intro st h1 h2
    simp only [extendFwd]
    split
    · rename_i hcond
      apply ih
      · unfold StOK at *
        simp only
        omega
      · unfold RealSt at *
        intro t ht
        simp only at ht ⊢
        by_cases htk : t = st.bestsize
        · subst htk
          exact hcond.2.2.2
        · exact h2 t (by omega)
    · exact ⟨h1, h2⟩

lemma extendBackJ_id (a b : List Line) (alo blo : Nat) :
    ∀ (fuel : Nat) (st : FLM), extendBackJ a b alo blo fuel st = st := by
  intro fuel
  cases fuel with
  | zero => intro st; rfl
  | succ fuel =>
    intro st
    simp only [extendBackJ]
    rw [if_neg]
    simp [bjunk]

lemma extendFwdJ_id (a b : List Line) (ahi bhi : Nat) :
    ∀ (fuel : Nat) (st : FLM), extendFwdJ a b ahi bhi fuel st = st := by
  intro fuel
  cases fuel with
  | zero => intro st; rfl
  | succ fuel =>
    intro st
    simp only [extendFwdJ]
    rw [if_neg]
    simp [bjunk]

lemma flm_inv (a b : List Line) (b2j : Line → List Nat)
    (hb2j : ∀ e j, j ∈ b2j e → j < b.length ∧ b.getD j dLine = e)
    (alo ahi blo bhi : Nat) (hab : alo ≤ ahi) (hbb : blo ≤ bhi) :
    StOK alo blo ahi bhi (find_longest_match a b b2j alo ahi blo bhi) ∧
    RealSt a b (find_longest_match a b b2j alo ahi blo bhi) := by
  unfold find_longest_match
  dsimp only
  have h0 : StOK alo blo alo bhi ⟨alo, blo, 0⟩ := by
    unfold StOK
    simp only
    omega
  have hr0 : RealSt a b ⟨alo, blo, 0⟩ := by
    unfold RealSt
    intro t ht
    simp only at ht
    omega
  have hd0 : DictOK a b alo blo alo (fun _ => 0) := by
    intro x
    refine ⟨Nat.zero_le _, Nat.zero_le _, ?_⟩
    intro t ht
    simp at ht
  obtain ⟨h1, h2⟩ := kLoop_inv a b b2j alo blo bhi hb2j (ahi - alo) alo
    (fun _ => 0) ⟨alo, blo, 0⟩ (Nat.le_refl _) h0 hr0 hd0
  rw [show alo + (ahi - alo) = ahi from by omega] at h1
  obtain ⟨h3, h4⟩ := extendBack_inv a b alo blo ahi bhi _ _ h1 h2
  obtain ⟨h5, h6⟩ := extendFwd_inv a b alo blo ahi bhi ahi _ h3 h4
  rw [extendBackJ_id, extendFwdJ_id]
  exact ⟨h5, h6⟩

-- ---------------------------------------------------------------------------
-- The queue loop of `get_matching_blocks`: the accumulated blocks are
-- genuine, in-range, and pairwise staircase-comparable.

lemma compQ_symm {x y : Quad} (h : compQ x y) : compQ y x := h.symm

lemma subQ_comp {x q y : Quad} (hx : subQ x q) (hqy : compQ q y) : compQ x y := by
  unfold subQ compQ befQ at *
  omega

lemma pairwise_insert_subs (olds1 olds2 news : List Quad) (q : Quad)
    (hold : List.Pairwise compQ (olds1 ++ q :: olds2))
    (hsub : ∀ x ∈ news, subQ x q)
    (hnews : List.Pairwise compQ news) :
    List.Pairwise compQ (olds1 ++ (news ++ olds2)) := by
  rw [List.pairwise_append] at hold
  obtain ⟨h1, h2, h3⟩ := hold
  rw [List.pairwise_cons] at h2
  obtain ⟨h4, h5⟩ := h2
  rw [List.pairwise_append]
  refine ⟨h1, ?_, ?_⟩
  · rw [List.pairwise_append]
    refine ⟨hnews, h5, ?_⟩
    intro x hx y hy
    exact subQ_comp (hsub x hx) (h4 y hy)
  · intro x hx y hy
    rcases List.mem_append.mp hy with hy1 | hy2
    · have hq : compQ x q := h3 x hx q (List.mem_cons_self q olds2)
      exact compQ_symm (subQ_comp (hsub y hy1) (compQ_symm hq))
    · exact h3 x hx y (List.mem_cons_of_mem q hy2)


lemma mem_if_singleton {α : Type} (c : Prop) [Decidable c] (x q : α)
    (hq : q ∈ (if c then [x] else [])) : c ∧ q = x := by
  split at hq
  · exact ⟨by assumption, List.mem_singleton.mp hq⟩
  · cases hq

lemma pairwise_if_singleton {α : Type} (R : α → α → Prop) (c : Prop) [Decidable c]
    (x : α) : List.Pairwise R (if c then [x] else []) := by
  split
  · exact List.pairwise_singleton R x
  · exact List.Pairwise.nil

lemma gmbLoop_inv (a b : List Line) (b2j : Line → List Nat)
    (hb2j : ∀ e j, j ∈ b2j e → j < b.length ∧ b.getD j dLine = e) :
    ∀ (fuel : Nat) (queue : List Quad) (acc : List Mt),
      (∀ q ∈ queue, wfQ a.length b.length q) →
      (∀ m ∈ acc, MOK a.length b.length a b m) →
      List.Pairwise compQ (acc.map mtQ ++ queue) →
      (∀ m ∈ gmbLoop a b b2j fuel queue acc, MOK a.length b.length a b m) ∧
      List.Pairwise compQ ((gmbLoop a b b2j fuel queue acc).map mtQ) := by
  intro fuel
  induction fuel with
  | zero =>
    intro queue acc _ hacc hpw
    exact ⟨hacc, List.Pairwise.sublist (List.sublist_append_left (acc.map mtQ) queue) hpw⟩
  | succ fuel ih =>
    intro queue acc hwf hacc hpw
    match queue with
    | [] =>
      refine ⟨hacc, ?_⟩
      simpa using hpw
    | (alo, ahi, blo, bhi) :: rest =>
      simp only [gmbLoop]
      have hqwf := hwf (alo, ahi, blo, bhi) (List.mem_cons_self _ rest)
      unfold wfQ at hqwf
      simp only at hqwf
      obtain ⟨hflm1, hflm2⟩ := flm_inv a b b2j hb2j alo ahi blo bhi
        (by omega) (by omega)
      set m := find_longest_match a b b2j alo ahi blo bhi with hm
      unfold StOK at hflm1
      by_cases hk : m.bestsize ≠ 0
      · rw [if_pos hk]
        have hmok : MOK a.length b.length a b ⟨m.besti, m.bestj, m.bestsize⟩ := by
          unfold MOK
          dsimp only
          exact ⟨by omega, by omega, by omega, fun t ht => hflm2 t ht⟩
        have hsubm : subQ (mtQ ⟨m.besti, m.bestj, m.bestsize⟩) (alo, ahi, blo, bhi) := by
          unfold subQ mtQ
          dsimp only
          omega
        apply ih
        · intro q hq
          rcases List.mem_append.mp hq with hq | hq
          · rcases List.mem_append.mp hq with hq | hq
            · obtain ⟨hc, rfl⟩ := mem_if_singleton _ _ q hq
              unfold wfQ
              dsimp only
              omega
            · obtain ⟨hc, rfl⟩ := mem_if_singleton _ _ q hq
              unfold wfQ
              dsimp only
              omega
          · exact hwf q (List.mem_cons_of_mem _ hq)
        · intro x hx
          rcases List.mem_append.mp hx with hx | hx
          · exact hacc x hx
          · rw [List.mem_singleton.mp hx]
            exact hmok
        · have heq :
            (acc ++ [(⟨m.besti, m.bestj, m.bestsize⟩ : Mt)]).map mtQ ++
              ((if m.besti + m.bestsize < ahi ∧ m.bestj + m.bestsize < bhi then
                  [(m.besti + m.bestsize, ahi, m.bestj + m.bestsize, bhi)] else []) ++
                (if alo < m.besti ∧ blo < m.bestj then
                  [(alo, m.besti, blo, m.bestj)] else []) ++ rest) =
            acc.map mtQ ++
              (([mtQ ⟨m.besti, m.bestj, m.bestsize⟩] ++
                (if m.besti + m.bestsize < ahi ∧ m.bestj + m.bestsize < bhi then
                  [(m.besti + m.bestsize, ahi, m.bestj + m.bestsize, bhi)] else []) ++
                (if alo < m.besti ∧ blo < m.bestj then
                  [(alo, m.besti, blo, m.bestj)] else [])) ++ rest) := by
            simp
          rw [heq]
          apply pairwise_insert_subs _ _ _ (alo, ahi, blo, bhi) hpw
          · intro x hx
            rcases List.mem_append.mp hx with hx | hx
            · rcases List.mem_append.mp hx with hx | hx
              · rw [List.mem_singleton.mp hx]
                exact hsubm
              · obtain ⟨hc, rfl⟩ := mem_if_singleton _ _ x hx
                unfold subQ
                dsimp only
                omega
            · obtain ⟨hc, rfl⟩ := mem_if_singleton _ _ x hx
              unfold subQ
              dsimp only
              omega
          · rw [List.pairwise_append]
            refine ⟨?_, pairwise_if_singleton _ _ _, ?_⟩
            · rw [List.pairwise_append]
              refine ⟨List.pairwise_singleton _ _, pairwise_if_singleton _ _ _, ?_⟩
              intro x hx y hy
              rw [List.mem_singleton.mp hx]
              obtain ⟨hc, rfl⟩ := mem_if_singleton _ _ y hy
              left
              unfold befQ mtQ
              dsimp only
              omega
            · intro x hx y hy
              obtain ⟨hc, rfl⟩ := mem_if_singleton _ _ y hy
              rcases List.mem_append.mp hx with hx | hx
              · rw [List.mem_singleton.mp hx]
                right
                unfold befQ mtQ
                dsimp only
                omega
              · obtain ⟨hc2, rfl⟩ := mem_if_singleton _ _ x hx
                right
                unfold befQ
                dsimp only
                omega
      · rw [if_neg hk]
        apply ih
        · intro q hq
          exact hwf q (List.mem_cons_of_mem _ hq)
        · exact hacc
        · exact List.Pairwise.sublist (List.Sublist.append_left
            (List.sublist_cons_self (alo, ahi, blo, bhi) rest) (acc.map mtQ)) hpw

-- ---------------------------------------------------------------------------
-- Sorting the blocks and collapsing adjacency

lemma adjChain_tail (m : Mt) (rest : List Mt) (h : AdjChain (m :: rest)) :
    AdjChain rest := by
  cases rest with
  | nil => trivial
  | cons m2 rest2 => exact h.2.2

lemma adjChain_head (m m2 : Mt) (rest : List Mt) (h : AdjChain (m :: m2 :: rest)) :
    m.i + m.k ≤ m2.i ∧ m.j + m.k ≤ m2.j :=
  ⟨h.1, h.2.1⟩

lemma sorted_staircase_chain :
    ∀ ms : List Mt, List.Sorted leMt ms → List.Pairwise compQ (ms.map mtQ) →
      (∀ m ∈ ms, 1 ≤ m.k) → AdjChain ms := by
  intro ms
  induction ms with
  | nil => intro _ _ _; trivial
  | cons m1 tail ih =>
    intro hsort hpw hks
    cases tail with
    | nil => trivial
    | cons m2 rest =>
      have hle : leMt m1 m2 := (List.pairwise_cons.mp hsort).1 m2 (List.mem_cons_self _ _)
      have hcomp : compQ (mtQ m1) (mtQ m2) := by
        rw [List.map_cons, List.map_cons, List.pairwise_cons] at hpw
        exact hpw.1 (mtQ m2) (List.mem_cons_self _ _)
      have hk1 : 1 ≤ m1.k := hks m1 (List.mem_cons_self _ _)
      have hk2 : 1 ≤ m2.k := hks m2 (List.mem_cons_of_mem _ (List.mem_cons_self _ _))
      have hbef : befQ (mtQ m1) (mtQ m2) := by
        rcases hcomp with h | h
        · exact h
        · exfalso
          unfold befQ mtQ at h
          unfold leMt at hle
          dsimp only at h
          omega
      refine ⟨?_, ?_, ?_⟩
      · unfold befQ mtQ at hbef; exact hbef.1
      · unfold befQ mtQ at hbef; exact hbef.2
      · refine ih ((List.pairwise_cons.mp hsort).2) ?_ ?_
        · rw [List.map_cons] at hpw
          exact (List.pairwise_cons.mp hpw).2
        · intro x hx
          exact hks x (List.mem_cons_of_mem _ hx)

lemma collapseLoop_inv (a b : List Line) :
    ∀ (ms : List Mt) (i1 j1 k1 : Nat),
      AdjChain ms →
      (∀ m ∈ ms, MOK a.length b.length a b m) →
      i1 + k1 ≤ a.length → j1 + k1 ≤ b.length →
      (∀ t, t < k1 → a.getD (i1 + t) dLine = b.getD (j1 + t) dLine) →
      (∀ m rest', ms = m :: rest' → i1 + k1 ≤ m.i ∧ j1 + k1 ≤ m.j) →
      (∀ lo_i lo_j, lo_i ≤ i1 → lo_j ≤ j1 →
        chainSteps lo_i lo_j (collapseLoop i1 j1 k1 ms ++ [⟨a.length, b.length, 0⟩])) ∧
      (∀ m ∈ collapseLoop i1 j1 k1 ms, MBnd a.length b.length a b m) := by
  intro ms
  induction ms with
  | nil =>
    intro i1 j1 k1 _ _ hia hjb hreal _
    constructor
    · intro lo_i lo_j hlo_i hlo_j
      by_cases hk1 : k1 ≠ 0
      · simp only [collapseLoop, if_pos hk1]
        simp only [List.cons_append, List.nil_append, chainSteps]
        refine ⟨hlo_i, hlo_j, hia, hjb, trivial⟩
      · simp only [collapseLoop, if_neg hk1]
        simp only [List.nil_append, chainSteps]
        push_neg at hk1
        subst hk1
        exact ⟨by omega, by omega, trivial⟩
    · intro m hm
      simp only [collapseLoop] at hm
      split at hm
      · rw [List.mem_singleton.mp hm]
        exact ⟨hia, hjb, hreal⟩
      · cases hm
  | cons m rest ih =>
    intro i1 j1 k1 hchain hmok hia hjb hreal hhead
    have hm := hmok m (List.mem_cons_self _ _)
    obtain ⟨hmk, hmia, hmjb, hmreal⟩ := hm
    have hmokr : ∀ x ∈ rest, MOK a.length b.length a b x :=
      fun x hx => hmok x (List.mem_cons_of_mem _ hx)
    have hchainr : AdjChain rest := adjChain_tail m rest hchain
    have hheadr : ∀ m2 rest2, rest = m2 :: rest2 →
        m.i + m.k ≤ m2.i ∧ m.j + m.k ≤ m2.j := by
      intro m2 rest2 hr
      subst hr
      exact adjChain_head m m2 rest2 hchain
    have hh := hhead m rest rfl
    by_cases hmerge : i1 + k1 = m.i ∧ j1 + k1 = m.j
    · simp only [collapseLoop, if_pos hmerge]
      have hrealm : ∀ t, t < k1 + m.k →
          a.getD (i1 + t) dLine = b.getD (j1 + t) dLine := by
        intro t ht
        by_cases htk : t < k1
        · exact hreal t htk
        · have e1 : i1 + t = m.i + (t - k1) := by omega
          have e2 : j1 + t = m.j + (t - k1) := by omega
          rw [e1, e2]
          exact hmreal (t - k1) (by omega)
      have hheadm : ∀ m2 rest2, rest = m2 :: rest2 →
          i1 + (k1 + m.k) ≤ m2.i ∧ j1 + (k1 + m.k) ≤ m2.j := by
        intro m2 rest2 hr
        have := hheadr m2 rest2 hr
        omega
      exact ih i1 j1 (k1 + m.k) hchainr hmokr (by omega) (by omega) hrealm hheadm
    · simp only [collapseLoop, if_neg hmerge]
      obtain ⟨ihc, ihb⟩ := ih m.i m.j m.k hchainr hmokr hmia hmjb hmreal hheadr
      constructor
      · intro lo_i lo_j hlo_i hlo_j
        by_cases hk1 : k1 ≠ 0
        · rw [if_pos hk1]
          simp only [List.cons_append, List.nil_append, chainSteps]
          exact ⟨hlo_i, hlo_j, ihc (i1 + k1) (j1 + k1) hh.1 hh.2⟩
        · rw [if_neg hk1]
          simp only [List.nil_append]
          push_neg at hk1
          exact ihc lo_i lo_j (by omega) (by omega)
      · intro x hx
        rcases List.mem_append.mp hx with hx | hx
        · split at hx
          · rw [List.mem_singleton.mp hx]
            exact ⟨hia, hjb, hreal⟩
          · cases hx
        · exact ihb x hx

lemma finalAcc_append_single (p : Nat × Nat) :
    ∀ (xs : List Mt) (m : Mt), finalAcc p (xs ++ [m]) = (m.i + m.k, m.j + m.k) := by
  intro xs
  induction xs generalizing p with
  | nil => intro m; rfl
  | cons x xs ih => intro m; exact ih (x.i + x.k, x.j + x.k) m

lemma chainSteps_finalAcc (la lb : Nat) :
    ∀ (blocks : List Mt) (i j : Nat), chainSteps i j blocks →
      i ≤ (finalAcc (i, j) blocks).1 ∧ j ≤ (finalAcc (i, j) blocks).2 := by
  intro blocks
  induction blocks with
  | nil => intro i j _; exact ⟨Nat.le_refl _, Nat.le_refl _⟩
  | cons m rest ih =>
    intro i j hc
    obtain ⟨h1, h2, h3⟩ := hc
    have := ih (m.i + m.k) (m.j + m.k) h3
    simp only [finalAcc]
    omega

lemma get_matching_blocks_inv (a b : List Line) :
    chainSteps 0 0 (get_matching_blocks a b) ∧
    (∀ m ∈ get_matching_blocks a b, MBnd a.length b.length a b m) ∧
    finalAcc (0, 0) (get_matching_blocks a b) = (a.length, b.length) := by
  have hb2j : ∀ e j, j ∈ mkB2j b e → j < b.length ∧ b.getD j dLine = e :=
    fun e j h => mkB2j_mem b e j h
  have hwf0 : ∀ q ∈ [((0 : Nat), a.length, (0 : Nat), b.length)],
      wfQ a.length b.length q := by
    intro q hq
    rw [List.mem_singleton.mp hq]
    unfold wfQ
    dsimp only
    omega
  obtain ⟨hmok, hpw⟩ := gmbLoop_inv a b (mkB2j b) hb2j (a.length + b.length + 1)
    [(0, a.length, 0, b.length)] [] hwf0 (fun m hm => absurd hm (List.not_mem_nil m))
    (by simpa using (List.pairwise_singleton compQ (0, a.length, 0, b.length)))
  set blocks := gmbLoop a b (mkB2j b) (a.length + b.length + 1)
    [(0, a.length, 0, b.length)] [] with hblocks
  set sorted := List.insertionSort leMt blocks with hsorted
  have hperm : sorted.Perm blocks := List.perm_insertionSort leMt blocks
  have hsortsorted : List.Sorted leMt sorted := List.sorted_insertionSort leMt blocks
  have hmoksorted : ∀ m ∈ sorted, MOK a.length b.length a b m :=
    fun m hm => hmok m (hperm.mem_iff.mp hm)
  have hpwsorted : List.Pairwise compQ (sorted.map mtQ) := by
    refine (List.Perm.pairwise_iff (fun h => compQ_symm h) (List.Perm.map mtQ hperm)).mpr hpw
  have hchain : AdjChain sorted :=
    sorted_staircase_chain sorted hsortsorted hpwsorted
      (fun m hm => (hmoksorted m hm).1)
  obtain ⟨hcs, hbnd⟩ := collapseLoop_inv a b sorted 0 0 0 hchain hmoksorted
    (by omega) (by omega) (fun t ht => absurd ht (by omega))
    (fun m rest' _ => ⟨Nat.zero_le _, Nat.zero_le _⟩)
  refine ⟨?_, ?_, ?_⟩
  · exact hcs 0 0 (Nat.le_refl _) (Nat.le_refl _)
  · intro m hm
    unfold get_matching_blocks at hm
    dsimp only at hm
    rw [← hblocks, ← hsorted] at hm
    rcases List.mem_append.mp hm with hm | hm
    · exact hbnd m hm
    · rw [List.mem_singleton.mp hm]
      unfold MBnd
      dsimp only
      refine ⟨by omega, by omega, ?_⟩
      intro t ht
      simp at ht
  · unfold get_matching_blocks
    dsimp only
    rw [← hblocks, ← hsorted]
    rw [finalAcc_append_single]
    rfl

-- ---------------------------------------------------------------------------
-- From matching blocks to opcodes

lemma slices_eq (a b : List Line) (i j k : Nat) (hia : i + k ≤ a.length)
    (hjb : j + k ≤ b.length)
    (hreal : ∀ t, t < k → a.getD (i + t) dLine = b.getD (j + t) dLine) :
    (a.drop i).take k = (b.drop j).take k := by
  apply List.ext_getElem
  · simp only [List.length_take, List.length_drop]
    omega
  · intro n h1 h2
    have hn : n < k := by
      simp only [List.length_take, List.length_drop] at h1
      omega
    have ha : i + n < a.length := by omega
    have hb : j + n < b.length := by omega
    rw [List.getElem_take, List.getElem_drop, List.getElem_take, List.getElem_drop]
    rw [← List.getD_eq_getElem a dLine ha, ← List.getD_eq_getElem b dLine hb]
    exact hreal n hn

lemma opcodesLoop_opsSeq (a b : List Line) :
    ∀ (blocks : List Mt) (i j : Nat),
      chainSteps i j blocks →
      (∀ m ∈ blocks, MBnd a.length b.length a b m) →
      finalAcc (i, j) blocks = (a.length, b.length) →
      OpsSeq a b i j (opcodesLoop i j blocks) := by
  intro blocks
  induction blocks with
  | nil =>
    intro i j _ _ hfin
    simp only [finalAcc] at hfin
    simp only [opcodesLoop, OpsSeq]
    exact ⟨congrArg Prod.fst hfin, congrArg Prod.snd hfin⟩
  | cons m rest ih =>
    intro i j hchain hbnd hfin
    obtain ⟨him, hjm, hrest⟩ := hchain
    obtain ⟨hmia, hmjb, hmreal⟩ := hbnd m (List.mem_cons_self _ _)
    have hfin' : finalAcc (m.i + m.k, m.j + m.k) rest = (a.length, b.length) := hfin
    have hrec := ih (m.i + m.k) (m.j + m.k) hrest
      (fun x hx => hbnd x (List.mem_cons_of_mem _ hx)) hfin'
    have hequal : OpsSeq a b m.i m.j
        ((if m.k ≠ 0 then [(⟨Tag.equal, m.i, m.i + m.k, m.j, m.j + m.k⟩ : Opc)] else []) ++
          opcodesLoop (m.i + m.k) (m.j + m.k) rest) := by
      by_cases hk : m.k ≠ 0
      · rw [if_pos hk]
        simp only [List.cons_append, List.nil_append]
        refine ⟨rfl, rfl, by dsimp only; omega, by dsimp only; omega,
          by dsimp only; omega, by dsimp only; omega, ?_, ?_, ?_, hrec⟩
        · intro _
          dsimp only
          rw [Nat.add_sub_cancel_left, Nat.add_sub_cancel_left]
          exact slices_eq a b m.i m.j m.k hmia hmjb hmreal
        · intro h
          cases h
        · intro h
          cases h
      · rw [if_neg hk]
        push_neg at hk
        simp only [List.nil_append]
        rw [hk, Nat.add_zero, Nat.add_zero] at hrec
        rw [hk, Nat.add_zero, Nat.add_zero]
        exact hrec
    simp only [opcodesLoop]
    by_cases hti : i < m.i
    · by_cases htj : j < m.j
      · rw [if_pos (⟨hti, htj⟩ : i < m.i ∧ j < m.j)]
        simp only [List.cons_append, List.nil_append]
        refine ⟨rfl, rfl, by dsimp only; omega, by dsimp only; omega,
          by dsimp only; omega, by dsimp only; omega, ?_, ?_, ?_, hequal⟩
        · intro h; cases h
        · intro h; cases h
        · intro h; cases h
      · rw [if_neg (fun hc : i < m.i ∧ j < m.j => htj hc.2), if_pos hti]
        simp only [List.cons_append, List.nil_append]
        have hjeq : j = m.j := by omega
        refine ⟨rfl, rfl, by dsimp only; omega, by dsimp only; omega,
          by dsimp only; omega, by dsimp only; omega, ?_, ?_, ?_, hequal⟩
        · intro h; cases h
        · intro _
          dsimp only
          exact hjeq
        · intro h; cases h
    · have hieq : i = m.i := by omega
      by_cases htj : j < m.j
      · rw [if_neg (fun hc : i < m.i ∧ j < m.j => hti hc.1), if_neg hti, if_pos htj]
        simp only [List.cons_append, List.nil_append]
        refine ⟨rfl, rfl, by dsimp only; omega, by dsimp only; omega,
          by dsimp only; omega, by dsimp only; omega, ?_, ?_, ?_, ?_⟩
        · intro h; cases h
        · intro h; cases h
        · intro _
          dsimp only
          exact hieq
        · rw [show (⟨Tag.insert, i, m.i, j, m.j⟩ : Opc).i2 = m.i from rfl,
            show (⟨Tag.insert, i, m.i, j, m.j⟩ : Opc).j2 = m.j from rfl]
          exact hequal
      · have hjeq : j = m.j := by omega
        rw [if_neg (fun hc : i < m.i ∧ j < m.j => hti hc.1), if_neg hti, if_neg htj]
        simp only [List.nil_append]
        rw [hieq, hjeq]
        exact hequal

lemma opsSeq_ranges (a b : List Line) :
    ∀ (ops : List Opc) (i j : Nat), OpsSeq a b i j ops →
      ((ops.map oldRangeList).flatten = List.range' i (a.length - i)) ∧
      ((ops.map newRangeList).flatten = List.range' j (b.length - j)) := by
  intro ops
  induction ops with
  | nil =>
    intro i j h
    obtain ⟨h1, h2⟩ := h
    subst h1
    subst h2
    simp
  | cons op rest ih =>
    intro i j h
    obtain ⟨hi1, hj1, hii, hjj, hila, hjlb, _, _, _, hrest⟩ := h
    obtain ⟨ih1, ih2⟩ := ih op.i2 op.j2 hrest
    constructor
    · simp only [List.map_cons, List.flatten_cons]
      rw [ih1]
      unfold oldRangeList
      rw [hi1]
      have hr := List.range'_append i (op.i2 - i) (a.length - op.i2) 1
      simp only [one_mul] at hr
      rw [show i + (op.i2 - i) = op.i2 from by omega] at hr
      rw [hr]
      congr 1
      omega
    · simp only [List.map_cons, List.flatten_cons]
      rw [ih2]
      unfold newRangeList
      rw [hj1]
      have hr := List.range'_append j (op.j2 - j) (b.length - op.j2) 1
      simp only [one_mul] at hr
      rw [show j + (op.j2 - j) = op.j2 from by omega] at hr
      rw [hr]
      congr 1
      omega

-- ---------------------------------------------------------------------------
-- Claim C4

/-- C4: for every pair of line sequences, the opcode sequence produced by
`SequenceMatcher(None, old, new).get_opcodes()` exactly partitions both index
ranges with no gaps or overlaps: the old ranges of the opcodes, concatenated
in order, reconstruct `[0, len(old))`, and likewise the new ranges
reconstruct `[0, len(new))`. -/
theorem c4_editop_partition :
    ∀ old_content new_content : List Line,
      ((get_opcodes old_content new_content).map oldRangeList).flatten =
        List.range old_content.length ∧
      ((get_opcodes old_content new_content).map newRangeList).flatten =
        List.range new_content.length := by
  intro a b
  obtain ⟨h1, h2, h3⟩ := get_matching_blocks_inv a b
  have hops := opcodesLoop_opsSeq a b (get_matching_blocks a b) 0 0 h1 h2 h3
  obtain ⟨r1, r2⟩ := opsSeq_ranges a b _ 0 0 hops
  rw [List.range_eq_range' a.length, List.range_eq_range' b.length]
  constructor
  · rw [show get_opcodes a b = opcodesLoop 0 0 (get_matching_blocks a b) from rfl]
    simpa using r1
  · rw [show get_opcodes a b = opcodesLoop 0 0 (get_matching_blocks a b) from rfl]
    simpa using r2

-- ---------------------------------------------------------------------------
-- The diff projection loop

lemma emitLines_spec (sym : Char) :
    ∀ (seg : List Line) (idx : Nat),
      emitLines sym seg idx =
        (seg.map (fun l => sym :: l), List.range' (idx + 1) seg.length,
          idx + seg.length) := by
  intro seg
  induction seg with
  | nil => intro idx; rfl
  | cons l ls ih =>
    intro idx
    simp only [emitLines, ih (idx + 1), List.map_cons, List.length_cons,
      List.range'_succ, Prod.mk.injEq, true_and]
    omega

lemma filter_map_cons_true (f : Line → Bool) (sym : Char)
    (hf : ∀ l, f (sym :: l) = true) (seg : List Line) :
    (seg.map (fun l => sym :: l)).filter f = seg.map (fun l => sym :: l) := by
  induction seg with
  | nil => rfl
  | cons l ls ih =>
    simp only [List.map_cons, List.filter_cons, hf l, if_pos]
    rw [ih]

lemma filter_map_cons_false (f : Line → Bool) (sym : Char)
    (hf : ∀ l, f (sym :: l) = false) (seg : List Line) :
    (seg.map (fun l => sym :: l)).filter f = [] := by
  induction seg with
  | nil => rfl
  | cons l ls ih =>
    simp only [List.map_cons, List.filter_cons, hf l]
    exact ih

lemma map_drop_one_map_cons (sym : Char) (seg : List Line) :
    ((seg.map (fun l => sym :: l)).map (fun l => l.drop 1)) = seg := by
  induction seg with
  | nil => rfl
  | cons l ls ih =>
    simp only [List.map_cons, List.drop_succ_cons, List.drop_zero]
    rw [ih]

lemma take_app_drop (l : List Line) (x y : Nat) (hxy : x ≤ y) :
    (l.drop x).take (y - x) ++ l.drop y = l.drop x := by
  have h : l.drop y = (l.drop x).drop (y - x) := by
    rw [List.drop_drop]
    congr 1
    omega
  rw [h, List.take_append_drop]

lemma projectLoop_reconstruct (old_content new_content : List Line) :
    ∀ (ops : List Opc) (i j oi ni : Nat), OpsSeq old_content new_content i j ops →
      (((projectLoop old_content new_content ops oi ni).1.filter keepNew).map
          (fun l => l.drop 1) = new_content.drop j) ∧
      (((projectLoop old_content new_content ops oi ni).1.filter keepOld).map
          (fun l => l.drop 1) = old_content.drop i) := by
  intro ops
  induction ops with
  | nil =>
    intro i j oi ni h
    obtain ⟨h1, h2⟩ := h
    subst h1
    subst h2
    simp [projectLoop, List.drop_length]
  | cons op rest ih =>
    intro i j oi ni h
    rcases op with ⟨tag, i1, i2, j1, j2⟩
    obtain ⟨hi1, hj1, hii, hjj, hila, hjlb, heqs, hdel, hins, hrest⟩ := h
    dsimp only at hi1 hj1 hii hjj hila hjlb heqs hdel hins hrest
    subst hi1
    subst hj1
    cases tag with
    | equal =>
      have hslice := heqs rfl
      simp only [projectLoop, emitLines_spec]
      obtain ⟨ihn, iho⟩ := ih i2 j2
        (oi + ((new_content.drop j1).take (j2 - j1)).length)
        (ni + ((new_content.drop j1).take (j2 - j1)).length) hrest
      constructor
      · simp only [List.filter_append, List.map_append,
          filter_map_cons_true keepNew ' ' (fun l => rfl), map_drop_one_map_cons, ihn]
        exact take_app_drop new_content j1 j2 hjj
      · simp only [List.filter_append, List.map_append,
          filter_map_cons_true keepOld ' ' (fun l => rfl), map_drop_one_map_cons, iho]
        rw [← hslice]
        exact take_app_drop old_content i1 i2 hii
    | replace =>
      simp only [projectLoop, emitLines_spec]
      obtain ⟨ihn, iho⟩ := ih i2 j2
        (oi + ((old_content.drop i1).take (i2 - i1)).length)
        (ni + ((new_content.drop j1).take (j2 - j1)).length) hrest
      constructor
      · simp only [List.filter_append, List.map_append,
          filter_map_cons_false keepNew '-' (fun l => rfl),
          filter_map_cons_true keepNew '+' (fun l => rfl),
          map_drop_one_map_cons, ihn, List.nil_append]
        exact take_app_drop new_content j1 j2 hjj
      · simp only [List.filter_append, List.map_append,
          filter_map_cons_true keepOld '-' (fun l => rfl),
          filter_map_cons_false keepOld '+' (fun l => rfl),
          map_drop_one_map_cons, iho, List.append_nil, List.nil_append]
        exact take_app_drop old_content i1 i2 hii
    | delete =>
      have hj2 : j1 = j2 := hdel rfl
      simp only [projectLoop, emitLines_spec]
      obtain ⟨ihn, iho⟩ := ih i2 j2
        (oi + ((old_content.drop i1).take (i2 - i1)).length) ni hrest
      constructor
      · simp only [List.filter_append, List.map_append,
          filter_map_cons_false keepNew '-' (fun l => rfl), ihn, List.nil_append]
        rw [hj2]
      · simp only [List.filter_append, List.map_append,
          filter_map_cons_true keepOld '-' (fun l => rfl),
          map_drop_one_map_cons, iho]
        exact take_app_drop old_content i1 i2 hii
    | insert =>
      have hi2 : i1 = i2 := hins rfl
      simp only [projectLoop, emitLines_spec]
      obtain ⟨ihn, iho⟩ := ih i2 j2
        oi (ni + ((new_content.drop j1).take (j2 - j1)).length) hrest
      constructor
      · simp only [List.filter_append, List.map_append,
          filter_map_cons_true keepNew '+' (fun l => rfl),
          map_drop_one_map_cons, ihn]
        exact take_app_drop new_content j1 j2 hjj
      · simp only [List.filter_append, List.map_append,
          filter_map_cons_false keepOld '+' (fun l => rfl), iho, List.nil_append]
        rw [hi2]

-- ---------------------------------------------------------------------------
-- Claim C6

/-- C6: for every pair of line sequences, concatenating the texts (after
stripping the one-character change symbol) of the projected rows that are
not `Removed` (i.e. `Added` and `Context`, those not starting with `-`)
reconstructs the new line sequence exactly, and likewise the rows that are
not `Added` reconstruct the old line sequence exactly. -/
theorem c6_no_information_loss :
    ∀ old_content new_content : List Line,
      (((projectPair old_content new_content
            (get_opcodes old_content new_content)).1.filter keepNew).map
          (fun l => l.drop 1) = new_content) ∧
      (((projectPair old_content new_content
            (get_opcodes old_content new_content)).1.filter keepOld).map
          (fun l => l.drop 1) = old_content) := by
  intro a b
  obtain ⟨h1, h2, h3⟩ := get_matching_blocks_inv a b
  have hops := opcodesLoop_opsSeq a b (get_matching_blocks a b) 0 0 h1 h2 h3
  have := projectLoop_reconstruct a b (get_opcodes a b) 0 0 0 0
    (by rw [show get_opcodes a b = opcodesLoop 0 0 (get_matching_blocks a b) from rfl]; exact hops)
  simpa [projectPair] using this

-- ---------------------------------------------------------------------------
-- Claim C7

/-- C7: the Row Projector processes opcodes in input order; each emitted
segment advances its version's counter exactly once per row and numbers the
rows consecutively from the counter (first conjunct); within a `replace`
opcode all `Removed` rows (old-version numbering from the old counter)
precede all `Added` rows (new-version numbering from the new counter)
(second conjunct); and on `old=["a","b","c"]`, `new=["a","x","c"]` the full
pipeline emits exactly
`[Context("a",1), Removed("b",2), Added("x",2), Context("c",3)]`
(third conjunct). -/
theorem c7_projector_order_and_scenario :
    (∀ (sym : Char) (seg : List Line) (idx : Nat),
      emitLines sym seg idx =
        (seg.map (fun l => sym :: l), List.range' (idx + 1) seg.length,
          idx + seg.length)) ∧
    (∀ (old_content new_content : List Line) (i1 i2 j1 j2 oi ni : Nat)
        (ops : List Opc),
      projectLoop old_content new_content
          ((⟨Tag.replace, i1, i2, j1, j2⟩ : Opc) :: ops) oi ni =
        (((old_content.drop i1).take (i2 - i1)).map (fun l => '-' :: l) ++
            ((new_content.drop j1).take (j2 - j1)).map (fun l => '+' :: l) ++
            (projectLoop old_content new_content ops
              (oi + ((old_content.drop i1).take (i2 - i1)).length)
              (ni + ((new_content.drop j1).take (j2 - j1)).length)).1,
          List.range' (oi + 1) ((old_content.drop i1).take (i2 - i1)).length ++
            List.range' (ni + 1) ((new_content.drop j1).take (j2 - j1)).length ++
            (projectLoop old_content new_content ops
              (oi + ((old_content.drop i1).take (i2 - i1)).length)
              (ni + ((new_content.drop j1).take (j2 - j1)).length)).2)) ∧
    toRows (projectPair [['a'], ['b'], ['c']] [['a'], ['x'], ['c']]
        (get_opcodes [['a'], ['b'], ['c']] [['a'], ['x'], ['c']])) =
      [⟨RKind.context, ['a'], 1⟩, ⟨RKind.removed, ['b'], 2⟩,
        ⟨RKind.added, ['x'], 2⟩, ⟨RKind.context, ['c'], 3⟩] := by
  refine ⟨emitLines_spec, ?_, ?_⟩
  · intro old_content new_content i1 i2 j1 j2 oi ni ops
    simp only [projectLoop, emitLines_spec, List.append_assoc]
  · decide

-- ---------------------------------------------------------------------------
-- Self-diff analysis: the k-loop's best match lies on the main diagonal

lemma mem_mkB2j_iff (b : List Line) (e : Line) (j : Nat) :
    j ∈ mkB2j b e ↔ (isPopular b e = false ∧ j < b.length ∧ b.getD j dLine = e) := by
  unfold mkB2j
  by_cases hp : isPopular b e
  · rw [if_pos hp]
    simp [hp]
  · rw [if_neg hp]
    rw [positions_mem]
    simp only [Bool.not_eq_true] at hp
    simp [hp]

lemma Da_zero_of_not_mem (a : List Line) (i j : Nat)
    (h : j ∉ mkB2j a (a.getD i dLine)) : Da a i j = 0 := by
  cases i with
  | zero => simp only [Da, if_neg h]
  | succ ii => simp only [Da, if_neg h]

lemma Da_succ_mem (a : List Line) (ii j : Nat)
    (h : j ∈ mkB2j a (a.getD (ii + 1) dLine)) :
    Da a (ii + 1) j = if j = 0 then 1 else Da a ii (j - 1) + 1 := by
  simp only [Da, if_pos h]

lemma Da_zero_mem (a : List Line) (j : Nat) (h : j ∈ mkB2j a (a.getD 0 dLine)) :
    Da a 0 j = 1 := by
  simp only [Da, if_pos h]

lemma Da_diag_pos (a : List Line) (j : Nat) (h : j ∈ mkB2j a (a.getD j dLine)) :
    1 ≤ Da a j j := by
  cases j with
  | zero => rw [Da_zero_mem a 0 h]
  | succ jj =>
    rw [Da_succ_mem a jj (jj + 1) h, if_neg (Nat.succ_ne_zero jj)]
    omega

lemma mkB2j_value_eq (a : List Line) (i j : Nat)
    (h : j ∈ mkB2j a (a.getD i dLine)) :
    mkB2j a (a.getD j dLine) = mkB2j a (a.getD i dLine) := by
  have := (mem_mkB2j_iff a (a.getD i dLine) j).mp h
  rw [this.2.2]

lemma mem_diag_of_mem (a : List Line) (i j : Nat) (hi : i < a.length)
    (h : j ∈ mkB2j a (a.getD i dLine)) : i ∈ mkB2j a (a.getD i dLine) := by
  have hm := (mem_mkB2j_iff a (a.getD i dLine) j).mp h
  exact (mem_mkB2j_iff a (a.getD i dLine) i).mpr ⟨hm.1, hi, rfl⟩

lemma mem_own_diag (a : List Line) (i j : Nat)
    (h : j ∈ mkB2j a (a.getD i dLine)) : j ∈ mkB2j a (a.getD j dLine) := by
  rw [mkB2j_value_eq a i j h]
  exact h

lemma Da_le_diag (a : List Line) :
    ∀ i j : Nat, i < a.length → j < a.length →
      Da a i j ≤ Da a i i ∧ Da a i j ≤ Da a j j := by
  intro i
  induction i with
  | zero =>
    intro j _ hj
    by_cases hm : j ∈ mkB2j a (a.getD 0 dLine)
    · rw [Da_zero_mem a j hm]
      constructor
      · rw [Da_zero_mem a 0 (mem_diag_of_mem a 0 j (by omega) hm)]
      · exact Da_diag_pos a j (mem_own_diag a 0 j hm)
    · rw [Da_zero_of_not_mem a 0 j hm]
      exact ⟨Nat.zero_le _, Nat.zero_le _⟩
  | succ ii ih =>
    intro j hi hj
    by_cases hm : j ∈ mkB2j a (a.getD (ii + 1) dLine)
    · rw [Da_succ_mem a ii j hm]
      have hdiagmem : ii + 1 ∈ mkB2j a (a.getD (ii + 1) dLine) :=
        mem_diag_of_mem a (ii + 1) j hi hm
      have hjmem : j ∈ mkB2j a (a.getD j dLine) := mem_own_diag a (ii + 1) j hm
      by_cases hj0 : j = 0
      · rw [if_pos hj0]
        constructor
        · have : Da a (ii + 1) (ii + 1) = Da a ii ii + 1 := by
            rw [Da_succ_mem a ii (ii + 1) hdiagmem]
            simp
          omega
        · subst hj0
          exact Da_diag_pos a 0 hjmem
      · rw [if_neg hj0]
        have hii : ii < a.length := by omega
        have hjm1 : j - 1 < a.length := by omega
        obtain ⟨d1, d2⟩ := ih (j - 1) hii hjm1
        constructor
        · have : Da a (ii + 1) (ii + 1) = Da a ii ii + 1 := by
            rw [Da_succ_mem a ii (ii + 1) hdiagmem]
            simp
          omega
        · have : Da a j j = Da a (j - 1) (j - 1) + 1 := by
            cases j with
            | zero => exact absurd rfl hj0
            | succ jj =>
              rw [Da_succ_mem a jj (jj + 1) hjmem]
              simp
          omega
    · rw [Da_zero_of_not_mem a (ii + 1) j hm]
      exact ⟨Nat.zero_le _, Nat.zero_le _⟩

lemma innerLoop_diag (a : List Line) (i : Nat) (hi : i < a.length) :
    ∀ (js pre : List Nat) (oldd newd : Nat → Nat) (st : FLM),
      mkB2j a (a.getD i dLine) = pre ++ js →
      st.besti = st.bestj →
      (∀ i' j', i' < i → Da a i' j' ≤ st.bestsize) →
      (∀ x ∈ pre, Da a i x ≤ st.bestsize) →
      (∀ x, newd x = if x ∈ pre then Da a i x else 0) →
      (∀ x, oldd x = if i = 0 then 0 else Da a (i - 1) x) →
      ((innerLoop 0 a.length i js oldd newd st).2.besti =
        (innerLoop 0 a.length i js oldd newd st).2.bestj) ∧
      (∀ i' j', i' < i →
        Da a i' j' ≤ (innerLoop 0 a.length i js oldd newd st).2.bestsize) ∧
      (∀ x ∈ mkB2j a (a.getD i dLine),
        Da a i x ≤ (innerLoop 0 a.length i js oldd newd st).2.bestsize) ∧
      (∀ x, (innerLoop 0 a.length i js oldd newd st).1 x =
        if x ∈ mkB2j a (a.getD i dLine) then Da a i x else 0) := by
  intro js
  induction js with
  | nil =>
    intro pre oldd newd st hlist hdiag h2 h3 hnewd _
    rw [List.append_nil] at hlist
    subst hlist
    exact ⟨hdiag, h2, h3, hnewd⟩
  | cons j js' ih =>
    intro pre oldd newd st hlist hdiag h2 h3 hnewd holdd
    have hmemj : j ∈ mkB2j a (a.getD i dLine) := by
      rw [hlist]
      exact List.mem_append_right pre (List.mem_cons_self j js')
    have hjlen : j < a.length := (mkB2j_mem a (a.getD i dLine) j hmemj).1
    simp only [innerLoop, if_neg (Nat.not_lt_zero j), if_neg (not_le.mpr hjlen)]
    have hk : (if j = 0 then 0 else oldd (j - 1)) + 1 = Da a i j := by
      by_cases hj0 : j = 0
      · rw [if_pos hj0, hj0]
        cases i with
        | zero => rw [Da_zero_mem a 0 (hj0 ▸ hmemj)]
        | succ ii => rw [Da_succ_mem a ii 0 (hj0 ▸ hmemj), if_pos rfl]
      · rw [if_neg hj0]
        cases i with
        | zero =>
          rw [holdd (j - 1), if_pos rfl, Da_zero_mem a j hmemj]
        | succ ii =>
          rw [holdd (j - 1), if_neg (Nat.succ_ne_zero ii),
            Da_succ_mem a ii j hmemj, if_neg hj0]
          simp
    have hlist' : mkB2j a (a.getD i dLine) = (pre ++ [j]) ++ js' := by
      rw [hlist, List.append_assoc, List.singleton_append]
    have hnewd' : ∀ K, K = Da a i j →
        ∀ x, (fun x => if x = j then K else newd x) x =
          if x ∈ pre ++ [j] then Da a i x else 0 := by
      intro K hK x
      dsimp only
      by_cases hx : x = j
      · subst hx
        rw [if_pos rfl, if_pos (List.mem_append_right pre (List.mem_singleton.mpr rfl))]
        exact hK
      · rw [if_neg hx, hnewd x]
        by_cases hxp : x ∈ pre
        · rw [if_pos hxp, if_pos (List.mem_append_left [j] hxp)]
        · rw [if_neg hxp, if_neg ?_]
          intro hc
          rcases List.mem_append.mp hc with hc | hc
          · exact hxp hc
          · exact hx (List.mem_singleton.mp hc)
    by_cases hup : st.bestsize < (if j = 0 then 0 else oldd (j - 1)) + 1
    · rw [if_pos hup]
      have hji : j = i := by
        rcases Nat.lt_trichotomy j i with hlt | heq | hgt
        · exfalso
          have hd1 := (Da_le_diag a i j hi hjlen).2
          have hd2 := h2 j j hlt
          omega
        · exact heq
        · exfalso
          have hmemi : i ∈ mkB2j a (a.getD i dLine) := mem_diag_of_mem a i j hi hmemj
          have hipre : i ∈ pre := by
            rw [hlist] at hmemi
            rcases List.mem_append.mp hmemi with hc | hc
            · exact hc
            · exfalso
              rcases List.mem_cons.mp hc with hc | hc
              · omega
              · have hsorted := mkB2j_sorted a (a.getD i dLine)
                rw [hlist] at hsorted
                have := (List.pairwise_cons.mp (List.pairwise_append.mp hsorted).2.1).1 i hc
                omega
          have hd1 := (Da_le_diag a i j hi hjlen).1
          have hd2 := h3 i hipre
          omega
      have hside1 : ∀ i' j', i' < i →
          Da a i' j' ≤ (⟨i + 1 - ((if j = 0 then 0 else oldd (j - 1)) + 1),
            j + 1 - ((if j = 0 then 0 else oldd (j - 1)) + 1),
            ((if j = 0 then 0 else oldd (j - 1)) + 1)⟩ : FLM).bestsize := by
        intro i' j' h
        have := h2 i' j' h
        dsimp only
        omega
      have hside2 : ∀ x ∈ pre ++ [j],
          Da a i x ≤ (⟨i + 1 - ((if j = 0 then 0 else oldd (j - 1)) + 1),
            j + 1 - ((if j = 0 then 0 else oldd (j - 1)) + 1),
            ((if j = 0 then 0 else oldd (j - 1)) + 1)⟩ : FLM).bestsize := by
        intro x hx
        dsimp only
        rcases List.mem_append.mp hx with hc | hc
        · have := h3 x hc
          omega
        · rw [List.mem_singleton.mp hc, ← hk]
      exact ih (pre ++ [j]) oldd _
        ⟨i + 1 - ((if j = 0 then 0 else oldd (j - 1)) + 1),
          j + 1 - ((if j = 0 then 0 else oldd (j - 1)) + 1),
          ((if j = 0 then 0 else oldd (j - 1)) + 1)⟩
        hlist' (by dsimp only; rw [hji]) hside1 hside2 (hnewd' _ hk) holdd
    · rw [if_neg hup]
      have hside3 : ∀ x ∈ pre ++ [j], Da a i x ≤ st.bestsize := by
        intro x hx
        rcases List.mem_append.mp hx with hc | hc
        · exact h3 x hc
        · rw [List.mem_singleton.mp hc, ← hk]
          omega
      exact ih (pre ++ [j]) oldd _ st hlist' hdiag h2 hside3 (hnewd' _ hk) holdd

lemma kLoop_diag (a : List Line) :
    ∀ (m i : Nat) (d : Nat → Nat) (st : FLM),
      i + m ≤ a.length →
      st.besti = st.bestj →
      (∀ i' j', i' < i → Da a i' j' ≤ st.bestsize) →
      (∀ x, d x = if i = 0 then 0 else Da a (i - 1) x) →
      (kLoop a (mkB2j a) 0 a.length (List.range' i m) d st).besti =
        (kLoop a (mkB2j a) 0 a.length (List.range' i m) d st).bestj := by
  intro m
  induction m with
  | zero =>
    intro i d st _ hdiag _ _
    exact hdiag
  | succ m ih =>
    intro i d st hile hdiag h2 hd
    rw [List.range'_succ]
    simp only [kLoop]
    obtain ⟨c1, c2, c3, c4⟩ := innerLoop_diag a i (by omega)
      (mkB2j a (a.getD i dLine)) [] d (fun _ => 0) st rfl hdiag h2
      (fun x hx => absurd hx (List.not_mem_nil x))
      (fun x => by rw [if_neg (List.not_mem_nil x)]) hd
    apply ih (i + 1) _ _ (by omega) c1
    · intro i' j' h
      by_cases hlt : i' < i
      · exact c2 i' j' hlt
      · have hieq : i' = i := by omega
        subst hieq
        by_cases hm : j' ∈ mkB2j a (a.getD i' dLine)
        · exact c3 j' hm
        · rw [Da_zero_of_not_mem a i' j' hm]
          exact Nat.zero_le _
    · intro x
      rw [if_neg (Nat.succ_ne_zero i), Nat.add_sub_cancel, c4 x]
      by_cases hm : x ∈ mkB2j a (a.getD i dLine)
      · rw [if_pos hm]
      · rw [if_neg hm, Da_zero_of_not_mem a i x hm]

lemma extendBack_diag (a : List Line) :
    ∀ (fuel : Nat) (st : FLM), st.besti = st.bestj → st.besti ≤ fuel →
      extendBack a a 0 0 fuel st = ⟨0, 0, st.besti + st.bestsize⟩ := by
  intro fuel
  induction fuel with
  | zero =>
    intro st hdiag hle
    have h0 : st.besti = 0 := by omega
    simp only [extendBack]
    cases st with
    | mk bi bj bk =>
      simp only at h0 hdiag
      subst h0
      subst hdiag
      simp
  | succ fuel ih =>
    intro st hdiag hle
    simp only [extendBack]
    by_cases h0 : 0 < st.besti
    · rw [if_pos ⟨h0, by omega, rfl, by rw [hdiag]⟩]
      rw [ih ⟨st.besti - 1, st.bestj - 1, st.bestsize + 1⟩ (by (try dsimp only); omega)
        (by (try dsimp only); omega)]
      have e1 : st.besti - 1 + (st.bestsize + 1) = st.besti + st.bestsize := by omega
      rw [e1]
    · rw [if_neg (fun hc => h0 hc.1)]
      have hb0 : st.besti = 0 := by omega
      cases st with
      | mk bi bj bk =>
        simp only at hb0 hdiag
        subst hb0
        subst hdiag
        simp

lemma extendFwd_diag (a : List Line) :
    ∀ (fuel : Nat) (st : FLM), st.besti = 0 → st.bestj = 0 →
      st.bestsize ≤ a.length → a.length ≤ st.bestsize + fuel →
      extendFwd a a a.length a.length fuel st = ⟨0, 0, a.length⟩ := by
  intro fuel
  induction fuel with
  | zero =>
    intro st hbi hbj hle hge
    have hs : st.bestsize = a.length := by omega
    simp only [extendFwd]
    cases st with
    | mk bi bj bk =>
      simp only at hbi hbj hs
      subst hbi
      subst hbj
      subst hs
      rfl
  | succ fuel ih =>
    intro st hbi hbj hle hge
    simp only [extendFwd]
    by_cases hlt : st.besti + st.bestsize < a.length
    · rw [if_pos ⟨hlt, by omega, rfl, by rw [hbi, hbj]⟩]
      exact ih ⟨st.besti, st.bestj, st.bestsize + 1⟩ hbi hbj
        (by (try dsimp only); omega) (by (try dsimp only); omega)
    · rw [if_neg (fun hc => hlt hc.1)]
      have hs : st.bestsize = a.length := by omega
      cases st with
      | mk bi bj bk =>
        simp only at hbi hbj hs
        subst hbi
        subst hbj
        subst hs
        rfl

lemma flm_self (a : List Line) :
    find_longest_match a a (mkB2j a) 0 a.length 0 a.length = ⟨0, 0, a.length⟩ := by
  have hb2j : ∀ e j, j ∈ mkB2j a e → j < a.length ∧ a.getD j dLine = e :=
    fun e j h => mkB2j_mem a e j h
  have hdiag := kLoop_diag a a.length 0 (fun _ => 0) ⟨0, 0, 0⟩
    (by omega) rfl (fun i' j' h => absurd h (Nat.not_lt_zero i'))
    (fun x => by rw [if_pos rfl])
  have hst0 : StOK 0 0 0 a.length (⟨0, 0, 0⟩ : FLM) := by
    unfold StOK
    dsimp only
    omega
  have hr0 : RealSt a a ⟨0, 0, 0⟩ := by
    unfold RealSt
    intro t ht
    simp at ht
  have hd0 : DictOK a a 0 0 0 (fun _ => 0) := by
    intro x
    refine ⟨Nat.zero_le _, Nat.zero_le _, ?_⟩
    intro t ht
    simp at ht
  obtain ⟨hbounds, _⟩ := kLoop_inv a a (mkB2j a) 0 0 a.length hb2j a.length 0
    (fun _ => 0) ⟨0, 0, 0⟩ (Nat.le_refl 0) hst0 hr0 hd0
  unfold find_longest_match
  dsimp only
  rw [Nat.sub_zero]
  set st1 := kLoop a (mkB2j a) 0 a.length (List.range' 0 a.length) (fun _ => 0)
    ⟨0, 0, 0⟩ with hst1
  unfold StOK at hbounds
  rw [extendBack_diag a st1.besti st1 hdiag (Nat.le_refl _)]
  rw [extendFwd_diag a a.length ⟨0, 0, st1.besti + st1.bestsize⟩ rfl rfl
    (by (try dsimp only); omega) (by (try dsimp only); omega)]
  rw [extendBackJ_id, extendFwdJ_id]

lemma gmbLoop_nil (a b : List Line) (b2j : Line → List Nat) :
    ∀ (fuel : Nat) (acc : List Mt), gmbLoop a b b2j fuel [] acc = acc := by
  intro fuel acc
  cases fuel with
  | zero => rfl
  | succ fuel => rfl

lemma gmb_self (a : List Line) (hn : 1 ≤ a.length) :
    get_matching_blocks a a =
      [⟨0, 0, a.length⟩, ⟨a.length, a.length, 0⟩] := by
  unfold get_matching_blocks
  dsimp only
  have hstep :
      gmbLoop a a (mkB2j a) (a.length + a.length + 1)
        [(0, a.length, 0, a.length)] [] = [⟨0, 0, a.length⟩] := by
    simp only [gmbLoop, flm_self a]
    rw [if_pos (by (try dsimp only); omega)]
    rw [if_neg (by (try dsimp only); omega), if_neg (by (try dsimp only); omega)]
    simp only [List.nil_append]
    exact gmbLoop_nil a a (mkB2j a) (a.length + a.length) [⟨0, 0, a.length⟩]
  rw [hstep]
  have hsort : List.insertionSort leMt [(⟨0, 0, a.length⟩ : Mt)] =
      [⟨0, 0, a.length⟩] := rfl
  rw [hsort]
  have hcoll : collapseLoop 0 0 0 [(⟨0, 0, a.length⟩ : Mt)] = [⟨0, 0, a.length⟩] := by
    simp only [collapseLoop]
    rw [if_pos (by simp)]
    rw [if_pos (by omega)]
    rw [Nat.zero_add]
  rw [hcoll]
  rfl

lemma get_opcodes_self (a : List Line) (hn : 1 ≤ a.length) :
    get_opcodes a a = [⟨Tag.equal, 0, a.length, 0, a.length⟩] := by
  unfold get_opcodes
  rw [gmb_self a hn]
  simp only [opcodesLoop]
  rw [if_neg (by (try dsimp only); omega), if_neg (by (try dsimp only); omega),
    if_neg (by (try dsimp only); omega), if_pos (by (try dsimp only); omega)]
  rw [if_neg (by (try dsimp only); omega), if_neg (by (try dsimp only); omega),
    if_neg (by (try dsimp only); omega), if_neg (by (try dsimp only); omega)]
  simp

-- ---------------------------------------------------------------------------
-- Claim C5

/-- C5: as stated ("for every line sequence, aligning the sequence against
itself yields a single Equal op spanning the whole range"), this is FALSE
for the empty sequence: the matcher returns an empty opcode list, not a
one-element list with an Equal op. -/
theorem c5_counterexample :
    get_opcodes ([] : List Line) [] ≠ [⟨Tag.equal, 0, 0, 0, 0⟩] := by decide

/-- C5 (amended: for every nonempty line sequence, aligning the sequence
against itself yields a single Equal op spanning the whole range, while the
empty sequence yields an empty op sequence; in both cases projecting the
ops emits exactly `len(lines)` Context rows numbered `1..len(lines)`). -/
theorem c5_self_alignment :
    ∀ lines : List Line,
      (get_opcodes lines lines =
        if lines.length = 0 then []
        else [⟨Tag.equal, 0, lines.length, 0, lines.length⟩]) ∧
      projectPair lines lines (get_opcodes lines lines) =
        (lines.map (fun l => ' ' :: l), List.range' 1 lines.length) := by
  intro lines
  by_cases h0 : lines.length = 0
  · have hnil : lines = [] := List.eq_nil_of_length_eq_zero h0
    subst hnil
    exact ⟨by decide, by decide⟩
  · have hn : 1 ≤ lines.length := by omega
    have hops := get_opcodes_self lines hn
    rw [if_neg h0]
    refine ⟨hops, ?_⟩
    rw [hops]
    unfold projectPair
    simp only [projectLoop, emitLines_spec]
    simp only [List.drop_zero, Nat.sub_zero, List.take_length, List.append_nil,
      Nat.zero_add]
